import Mathlib

/-!
# Verification of the vendor-evaluation pipeline (`main.py`)

A shallow embedding of the response-to-table normalization pipeline of the
procurement demo application: the requirement parser (`analyze_rfp`), the
evaluation parser (`evaluate_vendor_proposal`), and the table store
(`create_evaluation_matrix`, `update_evaluation_matrix`,
`get_evaluation_matrix`).  Python strings are modelled as Lean `String`
(a wrapped `List Char`); Python `dict`s (insertion ordered) as association
lists with insert-or-update semantics; a pandas `DataFrame` as a list of
rows with an explicit vendor-column header, `NaN` cells as `none`.
-/

set_option autoImplicit false

namespace Procurement

/-! ## Python string primitives -/

/-- The whitespace characters recognised by Python's `str.strip()`
(ASCII range; the pipeline only manipulates ASCII-controlled text). -/
def pyIsSpace (c : Char) : Bool :=
  c = ' ' || c = '\t' || c = '\n' || c = '\r' || c = Char.ofNat 11 || c = Char.ofNat 12

/-- Drop trailing characters satisfying `p`. -/
def dropTrailing (p : Char → Bool) (l : List Char) : List Char :=
  (l.reverse.dropWhile p).reverse

/-- Python `str.strip(chars)` on a character list: remove leading and
trailing characters satisfying `p`. -/
def stripBoth (p : Char → Bool) (l : List Char) : List Char :=
  dropTrailing p (l.dropWhile p)

/-- Python `str.strip()`. -/
def pyStrip (s : String) : String :=
  ⟨stripBoth pyIsSpace s.data⟩

/-- Python `str.strip('*')` (used by `analyze_rfp` on category headers). -/
def stripStars (s : String) : String :=
  ⟨stripBoth (· = '*') s.data⟩

/-- Python `str.lower()` (ASCII). -/
def pyLower (s : String) : String :=
  ⟨s.data.map Char.toLower⟩

/-- Python `str.upper()` (ASCII). -/
def pyUpper (s : String) : String :=
  ⟨s.data.map Char.toUpper⟩

/-- `chPre p l`: `p` is a leading run of `l`. -/
def chPre : List Char → List Char → Bool
  | [], _ => true
  | _ :: _, [] => false
  | a :: as, b :: bs => a = b && chPre as bs

/-- `chSub p l`: `p` occurs contiguously inside `l`. -/
def chSub (p : List Char) : List Char → Bool
  | [] => p.isEmpty
  | c :: cs => chPre p (c :: cs) || chSub p cs

/-- Python's substring test `sub in s`. -/
def containsSubstr (s sub : String) : Bool :=
  chSub sub.data s.data

/-- Python `s.startswith(p)`. -/
def pyStartsWith (s p : String) : Bool :=
  chPre p.data s.data

/-- Python `s.endswith(p)`. -/
def pyEndsWith (s p : String) : Bool :=
  chPre p.data.reverse s.data.reverse

/-- Split a character list at every occurrence of `sep`
(Python `str.split(sep)` for a one-character separator). -/
def splitChar (sep : Char) : List Char → List (List Char)
  | [] => [[]]
  | c :: cs =>
    if c = sep then [] :: splitChar sep cs
    else
      match splitChar sep cs with
      | h :: t => (c :: h) :: t
      | [] => [[c]]

/-- Python `s.split('\n')` (the separator used throughout `main.py`). -/
def pySplitLines (s : String) : List String :=
  (splitChar '\n' s.data).map (⟨·⟩)

/-- Split at the first occurrence of (non-empty) `sep`:
Python `s.split(sep, 1)` when `sep in s`, `none` otherwise. -/
def splitFirstAux (sep : List Char) : List Char → Option (List Char × List Char)
  | [] => none
  | c :: cs =>
    if chPre sep (c :: cs) then some ([], (c :: cs).drop sep.length)
    else
      match splitFirstAux sep cs with
      | some (a, b) => some (c :: a, b)
      | none => none

/-- Python `s.split(sep, 1)` packaged as the pair of the text before and
after the first occurrence of `sep`; `none` when `sep` does not occur. -/
def splitFirst (sep s : String) : Option (String × String) :=
  (splitFirstAux sep.data s.data).map (fun p => (⟨p.1⟩, ⟨p.2⟩))

/-- Python `s.find(sub)` restricted to a found occurrence: index of the
first occurrence of `sub` in `s`, `none` when absent. -/
def pyFindAux (sub : List Char) : List Char → Option Nat
  | [] => if sub = [] then some 0 else none
  | c :: cs =>
    if chPre sub (c :: cs) then some 0
    else (pyFindAux sub cs).map (· + 1)

def pyFind (s sub : String) : Option Nat :=
  pyFindAux sub.data s.data

/-- Python slice `s[a:b]` (with `a ≤ b`; out-of-range indices clamp). -/
def pySlice (s : String) (a b : Nat) : String :=
  ⟨(s.data.drop a).take (b - a)⟩

/-- Python `len(s)`. -/
def pyLen (s : String) : Nat := s.data.length

/-! ## Insertion-ordered string maps (Python `dict`) -/

/-- A Python `dict[str, str]` value: an association list whose keys are
kept distinct by `insertA`. -/
abbrev StrMap := List (String × String)

/-- `d[k]` lookup (first matching key). -/
def lookupA : StrMap → String → Option String
  | [], _ => none
  | p :: rest, k => if p.1 = k then some p.2 else lookupA rest k

/-- `d[k] = v`: update in place when the key is present, append otherwise
(Python dicts keep insertion order). -/
def insertA : StrMap → String → String → StrMap
  | [], k, v => [(k, v)]
  | p :: rest, k, v => if p.1 = k then (k, v) :: rest else p :: insertA rest k v

/-- The number of values satisfying `p`
(Python `sum(1 for val in d.values() if p(val))`). -/
def countValues (p : String → Bool) (d : StrMap) : Nat :=
  (d.filter (fun q => p q.2)).length

/-! ## The Evaluation Parser (`VendorEvaluator.evaluate_vendor_proposal`)

The function's LLM call is an external collaborator; the parsing of its
response is embedded here as a function of the response text and the
requirements list (the `vendor_text`/`vendor_name` arguments only feed
the prompt and never the parse).  The `yes_count`/`no_count`/
`not_sure_count` variables mutated during the line scan, and the
`Total … responses:` branches that reassign them, are dead state: the
code recomputes all three counters from the final `result` dict before
any use, so they are not carried in the parse state here. -/

/-- The trailer key `"--- PRICE INFORMATION ---"`. -/
def priceKey : String := "--- PRICE INFORMATION ---"

/-- The trailer key `"--- SCORING SUMMARY ---"`. -/
def scoreKey : String := "--- SCORING SUMMARY ---"

/-- The default price sentinel. -/
def priceSentinel : String := "No pricing information found in proposal"

/-- The default cell for an unparsed requirement. -/
def noInfoCell : String := "No - No information found in proposal"

/-- The keyword set of the price-extraction branch. -/
def priceKeywords : List String :=
  ["total project cost:", "implementation cost:", "annual fee:", "total cost:",
   "project cost:", "price:", "quote:", "amount:"]

/-- The exclusion keyword set guarding the price-extraction branch. -/
def priceExclusions : List String :=
  ["requirement", "assessment", "scoring", "total yes", "total no"]

/-- The filter that produces `actual_requirements` from the input list:
drops `**`/`---` marked lines, the two boilerplate phrases, and short
strings. -/
def isActualReq (req : String) : Bool :=
  !pyStartsWith req "**" && !pyEndsWith req "**" &&
  !pyStartsWith req "---" && !pyEndsWith req "---" &&
  !containsSubstr req "These requirements represent" &&
  !containsSubstr req "core evaluation criteria" &&
  pyLen (pyStrip req) > 10

/-- State of the line scan: the `evaluations` dict, the positional index
`current_requirement_index`, and `price_info`. -/
structure EvalScan where
  evals : StrMap
  idx : Nat
  price : String
deriving Repr, DecidableEq

/-- Initial scan state. -/
def EvalScan.init : EvalScan := ⟨[], 0, priceSentinel⟩

/-- The verdict word chosen for an assessment token: exact match against
`YES`/`NO`/`NOT SURE`, then substring fallback on the lowercased token. -/
def verdictWord (assessment : String) : String :=
  if assessment = "YES" then "Yes"
  else if assessment = "NO" then "No"
  else if assessment = "NOT SURE" then "Not Sure"
  else if containsSubstr (pyLower assessment) "yes" then "Yes"
  else if containsSubstr (pyLower assessment) "no" then "No"
  else "Not Sure"

/-- Processing of one line of the response (the body of the `for line in
lines` loop). -/
def procLine (actualReqs : List String) (st : EvalScan) (rawLine : String) : EvalScan :=
  let line := pyStrip rawLine
  if line = "" then st
  else if (containsSubstr line "Requirement" || containsSubstr line "requirement") &&
          containsSubstr line ":" then
    match splitFirst " - " line with
    | none => st
    | some (beforeDash, afterDash) =>
      let requirementPart := pyStrip beforeDash
      let explanation := pyStrip afterDash
      match splitFirst ":" requirementPart with
      | none => st
      | some (_, afterColon) =>
        let assessment := pyUpper (pyStrip afterColon)
        match actualReqs.get? st.idx with
        | none => st
        | some req =>
          { st with
            evals := insertA st.evals req (verdictWord assessment ++ " - " ++ explanation)
            idx := st.idx + 1 }
  else if priceKeywords.any (fun k => containsSubstr (pyLower line) k) then
    if priceExclusions.any (fun k => containsSubstr (pyLower line) k) then st
    else { st with price := pyStrip line }
  else st

/-- The primary line scan over the stripped, line-split response. -/
def scanResponse (response : String) (actualReqs : List String) : EvalScan :=
  (pySplitLines (pyStrip response)).foldl (procLine actualReqs) EvalScan.init

/-- The fallback verdict for one requirement: substring search of the
requirement text in the lowercased response, then a `yes`/`no` probe of
the 400-character window around the first occurrence. -/
def fallbackCell (response : String) (req : String) : String :=
  match pyFind (pyLower response) (pyLower req) with
  | none => "Not Sure - Requirement not found in proposal"
  | some reqIndex =>
    let surrounding := pyLower (pySlice response (reqIndex - 200) (reqIndex + 200))
    if containsSubstr surrounding "yes" && !containsSubstr surrounding "no" then
      "Yes - Requirement clearly addressed in proposal"
    else if containsSubstr surrounding "no" then
      "No - Requirement not found or insufficiently addressed"
    else
      "Not Sure - Unable to determine from proposal content"

/-- The fallback parse: one entry per actual requirement. -/
def fallbackEvals (response : String) (actualReqs : List String) : StrMap :=
  actualReqs.foldl (fun acc req => insertA acc req (fallbackCell response req)) []

/-- The `evaluations` dict after the primary scan and, when it yielded
nothing, the fallback parse. -/
def parsedEvals (response : String) (requirements : List String) : StrMap :=
  let actualReqs := requirements.filter isActualReq
  let st := scanResponse response actualReqs
  if st.evals = [] && !actualReqs.isEmpty then fallbackEvals response actualReqs
  else st.evals

/-- The `price_info` value after the line scan. -/
def parsedPrice (response : String) (requirements : List String) : String :=
  (scanResponse response (requirements.filter isActualReq)).price

/-- The cell assigned to one input requirement in the final assembly. -/
def cellFor (evals : StrMap) (req : String) : String :=
  if pyStartsWith req "**" && pyEndsWith req "**" then "N/A"
  else if pyStartsWith req "---" && pyEndsWith req "---" then "N/A"
  else if containsSubstr req "These requirements represent" ||
          containsSubstr req "core evaluation criteria" then "N/A"
  else
    match lookupA evals req with
    | some v => v
    | none => noInfoCell

/-- Python `repr` of the float `y*1 + ns*0.5` (always an exact half). -/
def scoreStr (y ns : Nat) : String :=
  if ns % 2 = 0 then toString (y + ns / 2) ++ ".0"
  else toString (y + ns / 2) ++ ".5"

/-- The rendered `--- SCORING SUMMARY ---` cell. -/
def summaryCell (y n ns : Nat) : String :=
  "Score: " ++ scoreStr y ns ++ "/" ++ toString (y + n + ns) ++
  " (Yes: " ++ toString y ++ ", No: " ++ toString n ++
  ", Not Sure: " ++ toString ns ++ ")"

/-- The per-requirement `result` dict before the trailer rows are added. -/
def assembleResult (requirements : List String) (evals : StrMap) : StrMap :=
  requirements.foldl (fun acc req => insertA acc req (cellFor evals req)) []

/-- The Evaluation Parser: the returned per-requirement map of
`evaluate_vendor_proposal` (its second return value is the raw response,
unchanged). -/
def evaluate_vendor_proposal (response : String) (requirements : List String) : StrMap :=
  let evals := parsedEvals response requirements
  let result := assembleResult requirements evals
  let yes := countValues (fun v => pyStartsWith v "Yes -") result
  let no := countValues (fun v => pyStartsWith v "No -") result
  let notSure := countValues (fun v => pyStartsWith v "Not Sure -") result
  let result := insertA result priceKey (parsedPrice response requirements)
  insertA result scoreKey (summaryCell yes no notSure)

/-! ## Association-list lemmas -/

theorem lookupA_insertA (d : StrMap) (k v k' : String) :
    lookupA (insertA d k v) k' = if k' = k then some v else lookupA d k' := by
  induction d with
  | nil =>
    simp only [insertA, lookupA]
    by_cases h : k' = k
    · rw [if_pos h.symm, if_pos h]
    · rw [if_neg (fun hh => h hh.symm), if_neg h]
  | cons p rest ih =>
    simp only [insertA]
    by_cases hp : p.1 = k
    · rw [if_pos hp]
      simp only [lookupA]
      by_cases h : k' = k
      · rw [if_pos h.symm, if_pos h]
      · have hp' : ¬ p.1 = k' := by rw [hp]; exact fun hh => h hh.symm
        rw [if_neg (fun hh => h hh.symm), if_neg h, if_neg hp']
    · rw [if_neg hp]
      simp only [lookupA]
      by_cases hpk : p.1 = k'
      · have hk : ¬ k' = k := fun hh => hp (hpk.trans hh)
        rw [if_pos hpk, if_neg hk, if_pos hpk]
      · rw [if_neg hpk, if_neg hpk, ih]

theorem mem_keys_of_lookupA {d : StrMap} {k : String} :
    (lookupA d k).isSome = true ↔ k ∈ d.map Prod.fst := by
  induction d with
  | nil => simp [lookupA]
  | cons p rest ih =>
    simp only [lookupA, List.map_cons, List.mem_cons]
    by_cases hp : p.1 = k
    · simp [hp]
    · have hk : ¬ k = p.1 := fun hh => hp hh.symm
      rw [if_neg hp]
      constructor
      · intro h
        exact Or.inr (ih.mp h)
      · rintro (h | h)
        · exact absurd h hk
        · exact ih.mpr h

theorem mem_keys_insertA {d : StrMap} {k v k' : String} :
    k' ∈ (insertA d k v).map Prod.fst ↔ k' = k ∨ k' ∈ d.map Prod.fst := by
  induction d with
  | nil => simp [insertA]
  | cons p rest ih =>
    simp only [insertA]
    by_cases hp : p.1 = k
    · simp only [if_pos hp, List.map_cons, List.mem_cons]
      constructor
      · rintro (h | h)
        · exact Or.inl h
        · exact Or.inr (Or.inr h)
      · rintro (h | h | h)
        · exact Or.inl h
        · exact Or.inl (hp ▸ h)
        · exact Or.inr h
    · simp only [if_neg hp, List.map_cons, List.mem_cons, ih]
      tauto

theorem nodup_keys_insertA {d : StrMap} {k v : String}
    (h : (d.map Prod.fst).Nodup) : ((insertA d k v).map Prod.fst).Nodup := by
  induction d with
  | nil => simp [insertA]
  | cons p rest ih =>
    simp only [List.map_cons, List.nodup_cons] at h
    simp only [insertA]
    by_cases hp : p.1 = k
    · simp only [if_pos hp, List.map_cons, List.nodup_cons]
      exact ⟨hp ▸ h.1, h.2⟩
    · rw [if_neg hp]
      simp only [List.map_cons, List.nodup_cons]
      refine ⟨?_, ih h.2⟩
      rw [mem_keys_insertA]
      rintro (hh | hh)
      · exact hp hh
      · exact h.1 hh

theorem mem_insertA {d : StrMap} {k v : String} {q : String × String}
    (h : q ∈ insertA d k v) : q ∈ d ∨ q = (k, v) := by
  induction d with
  | nil => simpa [insertA] using h
  | cons p rest ih =>
    simp only [insertA] at h
    by_cases hp : p.1 = k
    · simp only [if_pos hp, List.mem_cons] at h
      rcases h with h | h
      · exact Or.inr h
      · exact Or.inl (List.mem_cons_of_mem _ h)
    · simp only [if_neg hp, List.mem_cons] at h
      rcases h with h | h
      · exact Or.inl (h ▸ List.mem_cons_self _ _)
      · rcases ih h with h' | h'
        · exact Or.inl (List.mem_cons_of_mem _ h')
        · exact Or.inr h'

theorem filter_insertA_of_none {d : StrMap} {k v : String}
    {pred : String × String → Bool} (h : ∀ v', pred (k, v') = false) :
    (insertA d k v).filter pred = d.filter pred := by
  induction d with
  | nil => simp [insertA, h v]
  | cons p rest ih =>
    simp only [insertA]
    by_cases hp : p.1 = k
    · have hpfalse : pred p = false := by
        have := h p.2
        rwa [show (k, p.2) = p by rw [← hp]] at this
      rw [if_pos hp, List.filter_cons, List.filter_cons, h v, hpfalse]
      simp
    · rw [if_neg hp, List.filter_cons, List.filter_cons]
      cases hq : pred p <;> simp [ih]

theorem countValues_cons (p : String → Bool) (q : String × String) (d : StrMap) :
    countValues p (q :: d) = (if p q.2 then 1 else 0) + countValues p d := by
  simp only [countValues, List.filter_cons]
  cases hq : p q.2 <;> simp [Nat.add_comm]

theorem countValues_filter_of {p : String → Bool} {pred : String × String → Bool}
    {d : StrMap} (h : ∀ q ∈ d, pred q = false → p q.2 = false) :
    countValues p d = countValues p (d.filter pred) := by
  induction d with
  | nil => rfl
  | cons q rest ih =>
    have hrest : ∀ x ∈ rest, pred x = false → p x.2 = false := by
      intro x hx
      exact h x (List.mem_cons_of_mem _ hx)
    rw [countValues_cons, List.filter_cons]
    cases hq : pred q
    · have hpq : p q.2 = false := h q (List.mem_cons_self _ _) hq
      rw [hpq]
      simpa using ih hrest
    · rw [if_pos rfl, countValues_cons, ih hrest]

/-! ## Final-assembly lemmas -/

theorem lookupA_foldl_insert (f : String → String) :
    ∀ (reqs : List String) (acc : StrMap) (r : String),
      lookupA (reqs.foldl (fun a q => insertA a q (f q)) acc) r =
        if r ∈ reqs then some (f r) else lookupA acc r := by
  intro reqs
  induction reqs with
  | nil =>
    intro acc r
    simp
  | cons q rest ih =>
    intro acc r
    simp only [List.foldl_cons]
    rw [ih]
    by_cases hr : r ∈ rest
    · rw [if_pos hr, if_pos (List.mem_cons_of_mem _ hr)]
    · rw [if_neg hr, lookupA_insertA]
      by_cases hq : r = q
      · rw [if_pos hq, if_pos (by rw [hq]; exact List.mem_cons_self _ _), hq]
      · rw [if_neg hq, if_neg (by
          intro h
          rcases List.mem_cons.mp h with h | h
          · exact hq h
          · exact hr h)]

theorem lookupA_assembleResult (requirements : List String) (evals : StrMap) (r : String) :
    lookupA (assembleResult requirements evals) r =
      if r ∈ requirements then some (cellFor evals r) else none := by
  have h := lookupA_foldl_insert (cellFor evals) requirements [] r
  simpa [assembleResult, lookupA] using h

theorem mem_foldl_insert (f : String → String) :
    ∀ (reqs : List String) (acc : StrMap) (q : String × String),
      q ∈ reqs.foldl (fun a x => insertA a x (f x)) acc → q ∈ acc ∨ q.2 = f q.1 := by
  intro reqs
  induction reqs with
  | nil =>
    intro acc q h
    exact Or.inl h
  | cons x rest ih =>
    intro acc q h
    rcases ih _ _ h with h' | h'
    · rcases mem_insertA h' with h'' | h''
      · exact Or.inl h''
      · right
        rw [h'']
    · exact Or.inr h'

theorem mem_assembleResult {requirements : List String} {evals : StrMap}
    {q : String × String} (h : q ∈ assembleResult requirements evals) :
    q.2 = cellFor evals q.1 := by
  rcases mem_foldl_insert (cellFor evals) requirements [] q h with h' | h'
  · cases h'
  · exact h'

theorem nodup_keys_foldl_insert (f : String → String) :
    ∀ (reqs : List String) (acc : StrMap), (acc.map Prod.fst).Nodup →
      ((reqs.foldl (fun a x => insertA a x (f x)) acc).map Prod.fst).Nodup := by
  intro reqs
  induction reqs with
  | nil =>
    intro acc h
    exact h
  | cons x rest ih =>
    intro acc h
    exact ih _ (nodup_keys_insertA h)

/-- A `---`-headed string never begins with `**` (the two head characters
differ). -/
theorem startsDash_not_startsStar {req : String}
    (h : pyStartsWith req "---" = true) : pyStartsWith req "**" = false := by
  unfold pyStartsWith at h ⊢
  have h3 : ("---" : String).data = ['-', '-', '-'] := rfl
  have h2 : ("**" : String).data = ['*', '*'] := rfl
  rw [h3] at h
  rw [h2]
  cases hd : req.data with
  | nil =>
    rw [hd] at h
    simp [chPre] at h
  | cons c cs =>
    rw [hd] at h
    simp only [chPre, Bool.and_eq_true, decide_eq_true_eq] at h
    simp only [chPre, Bool.and_eq_false_iff]
    left
    rw [← h.1]
    decide

theorem cellFor_starWrapped {evals : StrMap} {req : String}
    (h1 : pyStartsWith req "**" = true) (h2 : pyEndsWith req "**" = true) :
    cellFor evals req = "N/A" := by
  unfold cellFor
  rw [if_pos (by rw [h1, h2]; rfl)]

theorem cellFor_dashWrapped {evals : StrMap} {req : String}
    (h1 : pyStartsWith req "---" = true) (h2 : pyEndsWith req "---" = true) :
    cellFor evals req = "N/A" := by
  unfold cellFor
  rw [if_neg (by rw [startsDash_not_startsStar h1]; simp),
      if_pos (by rw [h1, h2]; rfl)]

theorem cellFor_priceKey (evals : StrMap) : cellFor evals priceKey = "N/A" :=
  cellFor_dashWrapped (by decide) (by decide)

theorem cellFor_scoreKey (evals : StrMap) : cellFor evals scoreKey = "N/A" :=
  cellFor_dashWrapped (by decide) (by decide)

theorem cellFor_unparsed {evals : StrMap} {req : String}
    (hm1 : ¬(pyStartsWith req "**" = true ∧ pyEndsWith req "**" = true))
    (hm2 : ¬(pyStartsWith req "---" = true ∧ pyEndsWith req "---" = true))
    (hb1 : containsSubstr req "These requirements represent" = false)
    (hb2 : containsSubstr req "core evaluation criteria" = false)
    (hnone : lookupA evals req = none) : cellFor evals req = noInfoCell := by
  unfold cellFor
  rw [if_neg (by simpa [Bool.and_eq_true] using hm1),
      if_neg (by simpa [Bool.and_eq_true] using hm2),
      if_neg (by simp [hb1, hb2]), hnone]

/-- Looking a non-trailer key up in the returned map reads the
pre-trailer `result` dict. -/
theorem lookupA_evaluate_of_ne (response : String) (requirements : List String)
    {req : String} (hpk : req ≠ priceKey) (hsk : req ≠ scoreKey) :
    lookupA (evaluate_vendor_proposal response requirements) req =
      lookupA (assembleResult requirements (parsedEvals response requirements)) req := by
  dsimp only [evaluate_vendor_proposal]
  rw [lookupA_insertA, if_neg hsk, lookupA_insertA, if_neg hpk]

/-- **C1, counterexample.**  The input item
`"These requirements represent our needs"` is not a category marker (it is
wrapped neither in `**` nor in `---`), and no verdict is parsed for it from
the empty response, yet its rendered cell is the boilerplate sentinel
`"N/A"`, not `"No - No information found in proposal"`. -/
theorem verdict_default_cex :
    pyStartsWith "These requirements represent our needs" "**" = false ∧
    pyEndsWith "These requirements represent our needs" "**" = false ∧
    pyStartsWith "These requirements represent our needs" "---" = false ∧
    pyEndsWith "These requirements represent our needs" "---" = false ∧
    lookupA (parsedEvals "" ["These requirements represent our needs"])
      "These requirements represent our needs" = none ∧
    lookupA (evaluate_vendor_proposal "" ["These requirements represent our needs"])
      "These requirements represent our needs" = some "N/A" ∧
    ("N/A" : String) ≠ noInfoCell := by
  decide

/-- **C1, amended.**  For every requirements list and model response, any
non-marker, non-boilerplate requirement (not wrapped in `**` or `---` and
not containing either of the two boilerplate phrases) for which no verdict
was parsed receives exactly the rendered cell
`"No - No information found in proposal"` — never blank, never Not Sure. -/
theorem verdict_default_amended (response : String) (requirements : List String)
    (req : String) (hmem : req ∈ requirements)
    (hm1 : ¬(pyStartsWith req "**" = true ∧ pyEndsWith req "**" = true))
    (hm2 : ¬(pyStartsWith req "---" = true ∧ pyEndsWith req "---" = true))
    (hb1 : containsSubstr req "These requirements represent" = false)
    (hb2 : containsSubstr req "core evaluation criteria" = false)
    (hnone : lookupA (parsedEvals response requirements) req = none) :
    lookupA (evaluate_vendor_proposal response requirements) req = some noInfoCell := by
  have hpk : req ≠ priceKey := by
    intro hh
    subst hh
    exact hm2 ⟨by decide, by decide⟩
  have hsk : req ≠ scoreKey := by
    intro hh
    subst hh
    exact hm2 ⟨by decide, by decide⟩
  rw [lookupA_evaluate_of_ne response requirements hpk hsk,
      lookupA_assembleResult, if_pos hmem,
      cellFor_unparsed hm1 hm2 hb1 hb2 hnone]

/-- **C1, witness** for the amended theorem at a concrete input: the second
requirement is beyond the single parsed verdict line, so it defaults. -/
theorem verdict_default_witness :
    lookupA (parsedEvals "Requirement 1: Yes - ok fine"
      ["alpha beta gamma delta", "epsilon zeta eta theta"]) "epsilon zeta eta theta" = none ∧
    lookupA (evaluate_vendor_proposal "Requirement 1: Yes - ok fine"
      ["alpha beta gamma delta", "epsilon zeta eta theta"]) "epsilon zeta eta theta" =
      some noInfoCell :=
  ⟨by decide,
   verdict_default_amended _ _ _ (by decide) (by decide) (by decide) (by decide)
     (by decide) (by decide)⟩

/-- **C7, counterexample.**  The trailer key `--- PRICE INFORMATION ---` is
wrapped in `---`, hence a category-marker item by the claim's definition,
but when present in the input requirements list its returned cell is the
price string (here the price sentinel), not `N/A`. -/
theorem marker_na_cex :
    pyStartsWith priceKey "---" = true ∧ pyEndsWith priceKey "---" = true ∧
    lookupA (evaluate_vendor_proposal "" [priceKey]) priceKey = some priceSentinel ∧
    priceSentinel ≠ "N/A" := by
  decide

/-- **C7, amended.**  Every category-marker item of the input list (wrapped
in `**` or in `---`) other than the two trailer keys is mapped to exactly
`"N/A"` and so never receives a Yes/No/Not-Sure verdict. -/
theorem marker_na_amended (response : String) (requirements : List String)
    (req : String) (hmem : req ∈ requirements)
    (hmark : (pyStartsWith req "**" = true ∧ pyEndsWith req "**" = true) ∨
             (pyStartsWith req "---" = true ∧ pyEndsWith req "---" = true))
    (hpk : req ≠ priceKey) (hsk : req ≠ scoreKey) :
    lookupA (evaluate_vendor_proposal response requirements) req = some "N/A" := by
  rw [lookupA_evaluate_of_ne response requirements hpk hsk,
      lookupA_assembleResult, if_pos hmem]
  rcases hmark with ⟨h1, h2⟩ | ⟨h1, h2⟩
  · rw [cellFor_starWrapped h1 h2]
  · rw [cellFor_dashWrapped h1 h2]

/-- **C7, witness** at a concrete marker item. -/
theorem marker_na_witness :
    lookupA (evaluate_vendor_proposal "Requirement 1: Yes - fine"
      ["**Functional Requirements**", "alpha beta gamma delta"])
      "**Functional Requirements**" = some "N/A" :=
  marker_na_amended _ _ _ (by decide) (Or.inl ⟨by decide, by decide⟩)
    (by decide) (by decide)

/-- **C9.**  Key-set law of the Evaluation Parser: the returned map has
pairwise-distinct keys, and a key is present exactly when it is a string of
the input requirements list or one of the two trailer keys.  (Verdict lines
beyond the requirement count bind to no requirement, and duplicate input
strings collapse into the single entry they share.) -/
theorem evaluate_keyset (response : String) (requirements : List String) :
    ((evaluate_vendor_proposal response requirements).map Prod.fst).Nodup ∧
    ∀ k : String, (lookupA (evaluate_vendor_proposal response requirements) k).isSome = true ↔
      (k ∈ requirements ∨ k = priceKey ∨ k = scoreKey) := by
  constructor
  · dsimp only [evaluate_vendor_proposal]
    apply nodup_keys_insertA
    apply nodup_keys_insertA
    exact nodup_keys_foldl_insert _ requirements [] (by simp)
  · intro k
    by_cases hsk : k = scoreKey
    · dsimp only [evaluate_vendor_proposal]
      rw [lookupA_insertA, if_pos hsk]
      simp [hsk]
    · by_cases hpk : k = priceKey
      · dsimp only [evaluate_vendor_proposal]
        rw [lookupA_insertA, if_neg hsk, lookupA_insertA, if_pos hpk]
        simp [hpk]
      · rw [lookupA_evaluate_of_ne response requirements hpk hsk,
            lookupA_assembleResult]
        by_cases hmem : k ∈ requirements
        · simp [hmem]
        · simp [hmem, hpk, hsk]

/-- **C2.**  Score consistency: the returned `--- SCORING SUMMARY ---` cell
renders `Score: s/t (Yes: y, No: n, Not Sure: ns)` where `y`, `n`, `ns` are
obtained by re-scanning the leading verdict word of each rendered cell of
the returned per-requirement map (the returned map minus its two trailer
entries), `s = y*1 + ns*0.5` (rendered by `scoreStr`), and
`t = y + n + ns` — never the model's self-reported tally. -/
theorem score_summary_consistent (response : String) (requirements : List String) :
    lookupA (evaluate_vendor_proposal response requirements) scoreKey =
      some (summaryCell
        (countValues (fun v => pyStartsWith v "Yes -")
          ((evaluate_vendor_proposal response requirements).filter
            (fun q => !(q.1 == priceKey || q.1 == scoreKey))))
        (countValues (fun v => pyStartsWith v "No -")
          ((evaluate_vendor_proposal response requirements).filter
            (fun q => !(q.1 == priceKey || q.1 == scoreKey))))
        (countValues (fun v => pyStartsWith v "Not Sure -")
          ((evaluate_vendor_proposal response requirements).filter
            (fun q => !(q.1 == priceKey || q.1 == scoreKey))))) := by
  have hfil : (evaluate_vendor_proposal response requirements).filter
      (fun q => !(q.1 == priceKey || q.1 == scoreKey)) =
      (assembleResult requirements (parsedEvals response requirements)).filter
        (fun q => !(q.1 == priceKey || q.1 == scoreKey)) := by
    dsimp only [evaluate_vendor_proposal]
    rw [filter_insertA_of_none (fun v' => by simp),
        filter_insertA_of_none (fun v' => by simp)]
  have hbody : ∀ (p : String → Bool), p "N/A" = false →
      countValues p (assembleResult requirements (parsedEvals response requirements)) =
      countValues p ((assembleResult requirements (parsedEvals response requirements)).filter
        (fun q => !(q.1 == priceKey || q.1 == scoreKey))) := by
    intro p hp
    apply countValues_filter_of
    intro q hq hfalse
    have hcell := mem_assembleResult hq
    have h1 : q.1 = priceKey ∨ q.1 = scoreKey :=
      or_iff_not_imp_left.mpr (by simpa using hfalse)
    rcases h1 with h1 | h1
    · rw [hcell, h1, cellFor_priceKey]
      exact hp
    · rw [hcell, h1, cellFor_scoreKey]
      exact hp
  rw [hfil, ← hbody _ (by decide), ← hbody _ (by decide), ← hbody _ (by decide)]
  dsimp only [evaluate_vendor_proposal]
  rw [lookupA_insertA, if_pos rfl]

/-- **C9, witness**: on a concrete input, a key present in the requirements
list is present in the returned map. -/
theorem evaluate_keyset_witness :
    (lookupA (evaluate_vendor_proposal "no verdicts here"
      ["alpha beta gamma delta"]) "alpha beta gamma delta").isSome = true :=
  (evaluate_keyset "no verdicts here" ["alpha beta gamma delta"]).2
    "alpha beta gamma delta" |>.mpr (Or.inl (by decide))

/-! ## Strip and lowercase lemmas (for the price-extraction claim) -/

theorem length_dropWhile_le' (p : Char → Bool) (l : List Char) :
    (l.dropWhile p).length ≤ l.length := by
  induction l with
  | nil => simp
  | cons a t ih =>
    rw [List.dropWhile_cons]
    by_cases h : p a
    · simp only [if_pos h]
      exact Nat.le_succ_of_le ih
    · simp [h]

theorem head_false_of_dropWhile_self {p : Char → Bool} {a : Char} {t : List Char}
    (h : (a :: t).dropWhile p = a :: t) : p a = false := by
  by_cases hp : p a
  · rw [List.dropWhile_cons, if_pos hp] at h
    have := length_dropWhile_le' p t
    rw [h] at this
    simp at this
  · simpa using hp

theorem dropWhile_dropWhile (p : Char → Bool) (l : List Char) :
    (l.dropWhile p).dropWhile p = l.dropWhile p := by
  induction l with
  | nil => simp
  | cons a t ih =>
    rw [List.dropWhile_cons]
    by_cases h : p a
    · simpa [h] using ih
    · simp [List.dropWhile_cons, h]

theorem dropWhile_append_singleton {p : Char → Bool} {a : Char} (h : p a = false) :
    ∀ xs : List Char, (xs ++ [a]).dropWhile p = xs.dropWhile p ++ [a] := by
  intro xs
  induction xs with
  | nil => simp [List.dropWhile_cons, h]
  | cons x t ih =>
    rw [List.cons_append, List.dropWhile_cons, List.dropWhile_cons]
    by_cases hx : p x
    · simpa [hx] using ih
    · simp [hx]

theorem dropTrailing_cons_of_false {p : Char → Bool} {a : Char} {t : List Char}
    (h : p a = false) : dropTrailing p (a :: t) = a :: dropTrailing p t := by
  unfold dropTrailing
  rw [List.reverse_cons, dropWhile_append_singleton h, List.reverse_append]
  simp

theorem dropTrailing_dropTrailing (p : Char → Bool) (l : List Char) :
    dropTrailing p (dropTrailing p l) = dropTrailing p l := by
  unfold dropTrailing
  rw [List.reverse_reverse, dropWhile_dropWhile]

theorem stripBoth_idem (p : Char → Bool) (l : List Char) :
    stripBoth p (stripBoth p l) = stripBoth p l := by
  unfold stripBoth
  have hw : (l.dropWhile p).dropWhile p = l.dropWhile p := dropWhile_dropWhile p l
  have hhead : (dropTrailing p (l.dropWhile p)).dropWhile p =
      dropTrailing p (l.dropWhile p) := by
    cases hd : l.dropWhile p with
    | nil => simp [dropTrailing]
    | cons a t =>
      have ha : p a = false := head_false_of_dropWhile_self (by rw [← hd, hw, hd])
      rw [dropTrailing_cons_of_false ha, List.dropWhile_cons, ha]
      simp
  rw [hhead, dropTrailing_dropTrailing]

theorem pyStrip_idem (s : String) : pyStrip (pyStrip s) = pyStrip s := by
  unfold pyStrip
  rw [stripBoth_idem]

theorem chPre_map (f : Char → Char) :
    ∀ (p l : List Char), chPre p l = true → chPre (p.map f) (l.map f) = true := by
  intro p
  induction p with
  | nil =>
    intro l _
    simp [chPre]
  | cons a as ih =>
    intro l h
    cases l with
    | nil => simp [chPre] at h
    | cons b bs =>
      simp only [chPre, Bool.and_eq_true, decide_eq_true_eq] at h
      simp only [List.map_cons, chPre, Bool.and_eq_true, decide_eq_true_eq]
      exact ⟨by rw [h.1], ih bs h.2⟩

theorem chSub_map (f : Char → Char) :
    ∀ (l p : List Char), chSub p l = true → chSub (p.map f) (l.map f) = true := by
  intro l
  induction l with
  | nil =>
    intro p h
    simp only [chSub] at h ⊢
    rcases p with _ | ⟨a, t⟩
    · simp
    · simp at h
  | cons c cs ih =>
    intro p h
    simp only [chSub, Bool.or_eq_true] at h
    rcases h with h | h
    · simp only [List.map_cons, chSub, Bool.or_eq_true]
      exact Or.inl (chPre_map f p (c :: cs) h)
    · simp only [List.map_cons, chSub, Bool.or_eq_true]
      exact Or.inr (ih p h)

/-- A case-sensitive occurrence of `Requirement` or `requirement` in a line
forces the occurrence of `requirement` in its lowercased form. -/
theorem lower_contains_requirement {line : String}
    (h : containsSubstr line "Requirement" = true ∨
         containsSubstr line "requirement" = true) :
    containsSubstr (pyLower line) "requirement" = true := by
  unfold containsSubstr pyLower at *
  rcases h with h | h
  · have := chSub_map Char.toLower line.data ("Requirement" : String).data h
    simpa using this
  · have := chSub_map Char.toLower line.data ("requirement" : String).data h
    simpa using this

/-! ## Price extraction (`price_info`) -/

/-- The predicate that makes a response line set `price_info`: its
stripped, lowercased form contains one of the price keywords and none of
the scoring/requirement exclusion keywords. -/
def isPriceLine (rawLine : String) : Bool :=
  priceKeywords.any (fun k => containsSubstr (pyLower (pyStrip rawLine)) k) &&
  !(priceExclusions.any (fun k => containsSubstr (pyLower (pyStrip rawLine)) k))

theorem procLine_price (actualReqs : List String) (st : EvalScan) (rawLine : String) :
    (procLine actualReqs st rawLine).price =
      if isPriceLine rawLine = true then pyStrip rawLine else st.price := by
  unfold procLine
  by_cases hempty : pyStrip rawLine = ""
  · rw [if_pos hempty]
    have : isPriceLine rawLine = false := by
      unfold isPriceLine
      rw [hempty]
      decide
    rw [this]
    simp
  · rw [if_neg hempty]
    by_cases hb : ((containsSubstr (pyStrip rawLine) "Requirement" ||
        containsSubstr (pyStrip rawLine) "requirement") &&
        containsSubstr (pyStrip rawLine) ":") = true
    · rw [if_pos hb]
      have hexcl : priceExclusions.any
          (fun k => containsSubstr (pyLower (pyStrip rawLine)) k) = true := by
        apply List.any_eq_true.mpr
        refine ⟨"requirement", by decide, ?_⟩
        have hb' := hb
        simp only [Bool.and_eq_true, Bool.or_eq_true] at hb'
        exact lower_contains_requirement hb'.1
      have hfalse : isPriceLine rawLine = false := by
        unfold isPriceLine
        rw [hexcl]
        simp
      rw [hfalse, if_neg (by simp)]
      rcases hsf : splitFirst " - " (pyStrip rawLine) with _ | ⟨a, b⟩
      · rfl
      · dsimp only
        rcases hsc : splitFirst ":" (pyStrip a) with _ | ⟨c, d⟩
        · rfl
        · dsimp only
          rcases hg : actualReqs.get? st.idx with _ | req
          · rfl
          · rfl
    · rw [if_neg hb]
      by_cases hkw : priceKeywords.any
          (fun k => containsSubstr (pyLower (pyStrip rawLine)) k) = true
      · rw [if_pos hkw]
        by_cases hexcl : priceExclusions.any
            (fun k => containsSubstr (pyLower (pyStrip rawLine)) k) = true
        · rw [if_pos hexcl]
          have hfalse : isPriceLine rawLine = false := by
            unfold isPriceLine
            rw [hexcl]
            simp
          rw [hfalse]
          simp
        · rw [if_neg hexcl]
          have htrue : isPriceLine rawLine = true := by
            unfold isPriceLine
            rw [hkw, Bool.eq_false_iff.mpr hexcl]
            rfl
          rw [htrue, if_pos rfl]
          exact pyStrip_idem rawLine
      · rw [if_neg hkw]
        have hfalse : isPriceLine rawLine = false := by
          unfold isPriceLine
          rw [Bool.eq_false_iff.mpr hkw]
          rfl
        rw [hfalse]
        simp

theorem scan_price (actualReqs : List String) :
    ∀ (lines : List String) (st : EvalScan),
      ((lines.foldl (procLine actualReqs) st).price) =
        lines.foldl (fun acc l => if isPriceLine l = true then pyStrip l else acc) st.price := by
  intro lines
  induction lines with
  | nil =>
    intro st
    rfl
  | cons l rest ih =>
    intro st
    simp only [List.foldl_cons]
    rw [ih, procLine_price]

theorem getLast_cons_isSome :
    ∀ (xs : List String) (x : String), ∃ z, (x :: xs).getLast? = some z := by
  intro xs
  induction xs with
  | nil =>
    intro x
    exact ⟨x, by simp⟩
  | cons y ys ih =>
    intro x
    rw [List.getLast?_cons_cons]
    exact ih y

theorem foldl_choice_getLast (g : String → String) (p : String → Bool) :
    ∀ (lines : List String) (acc : String),
      lines.foldl (fun a l => if p l = true then g l else a) acc =
        (match (lines.filter p).getLast? with
         | some l => g l
         | none => acc) := by
  intro lines
  induction lines with
  | nil =>
    intro acc
    rfl
  | cons l rest ih =>
    intro acc
    simp only [List.foldl_cons, List.filter_cons]
    by_cases hp : p l = true
    · rw [if_pos hp, if_pos hp, ih]
      cases hfp : rest.filter p with
      | nil => rfl
      | cons x xs =>
        rw [List.getLast?_cons_cons]
        obtain ⟨z, hz⟩ := getLast_cons_isSome xs x
        rw [hz]
    · rw [if_neg hp, if_neg hp, ih]

/-- **C5, counterexample.**  Two lines of the response match the
price-keyword rule; the parser returns the second (last) one, not the
first as claimed. -/
theorem price_extraction_cex :
    isPriceLine "price: 100" = true ∧ isPriceLine "price: 200" = true ∧
    lookupA (evaluate_vendor_proposal "price: 100\nprice: 200" []) priceKey =
      some "price: 200" ∧ ("price: 200" : String) ≠ "price: 100" := by
  decide

/-- **C5, amended.**  The price returned by the Evaluation Parser is taken
from the *last* line whose stripped, lowercased form contains one of the
price keywords and none of the scoring/requirement exclusion keywords
(`isPriceLine`); when no such line exists it is the fixed
`"No pricing information found in proposal"` sentinel. -/
theorem price_extraction_amended (response : String) (requirements : List String) :
    lookupA (evaluate_vendor_proposal response requirements) priceKey =
      some (match ((pySplitLines (pyStrip response)).filter isPriceLine).getLast? with
            | some l => pyStrip l
            | none => priceSentinel) := by
  dsimp only [evaluate_vendor_proposal]
  rw [lookupA_insertA, if_neg (by decide : ¬ priceKey = scoreKey),
      lookupA_insertA, if_pos rfl]
  congr 1
  unfold parsedPrice scanResponse
  rw [scan_price]
  exact foldl_choice_getLast pyStrip isPriceLine (pySplitLines (pyStrip response))
    priceSentinel

/-! ## The Table Store (`create_evaluation_matrix`, `update_evaluation_matrix`,
`get_evaluation_matrix`)

A pandas `DataFrame` as persisted to `evaluation_matrix.csv`: a
`Requirements` column plus one column per vendor; `NaN` cells are `none`. -/

structure Table where
  vendors : List String
  rows : List (String × List (Option String))
deriving Repr, DecidableEq

def Table.empty : Table := ⟨[], []⟩

/-- Rendering of an input requirement when the matrix is created:
`**`-wrapped category headers become `--- … ---`. -/
def processReq (req : String) : String :=
  if pyStartsWith req "**" && pyEndsWith req "**" then
    "--- " ++ stripStars req ++ " ---"
  else req

/-- `create_evaluation_matrix`: the seed table holds the requirement
column only. -/
def create_evaluation_matrix (requirements : List String) : Table :=
  ⟨[], (requirements.map processReq).map (fun r => (r, []))⟩

/-- Position of vendor `v` in the header (`= length` when absent). -/
def idxOf (v : String) : List String → Nat
  | [] => 0
  | x :: xs => if x = v then 0 else idxOf v xs + 1

/-- `df[vendor_name] = df['Requirements'].map(vendor_evaluations)`:
overwrite the vendor's column in place when present, append it otherwise. -/
def setColumn (t : Table) (v : String) (m : StrMap) : Table :=
  if v ∈ t.vendors then
    ⟨t.vendors, t.rows.map (fun p => (p.1, p.2.set (idxOf v t.vendors) (lookupA m p.1)))⟩
  else
    ⟨t.vendors ++ [v], t.rows.map (fun p => (p.1, p.2 ++ [lookupA m p.1]))⟩

/-- The fresh row appended for a mapping key absent from the table: the
vendor's cell holds the evaluation, every other column `NaN`. -/
def newCells (vendors : List String) (v : String) (ev : String) : List (Option String) :=
  vendors.map (fun c => if c = v then some ev else none)

/-- The `for req, evaluation in vendor_evaluations.items()` loop that
appends rows for mapping keys not yet in the `Requirements` column. -/
def appendMissing (t : Table) (v : String) : StrMap → Table
  | [] => t
  | (req, ev) :: rest =>
    if req ∈ t.rows.map Prod.fst then appendMissing t v rest
    else appendMissing ⟨t.vendors, t.rows ++ [(req, newCells t.vendors v ev)]⟩ v rest

/-- A row whose requirement text contains `PRICE INFORMATION`. -/
def rowIsPrice (p : String × List (Option String)) : Bool :=
  containsSubstr p.1 "PRICE INFORMATION"

/-- A row whose requirement text contains `SCORING SUMMARY`. -/
def rowIsScore (p : String × List (Option String)) : Bool :=
  containsSubstr p.1 "SCORING SUMMARY"

/-- A row that is kept in place by the trailer relocation. -/
def keepRow (p : String × List (Option String)) : Bool :=
  !(rowIsPrice p || rowIsScore p)

/-- Relocation of the trailer rows: matching rows are selected, removed,
and re-appended at the end, price rows before scoring rows. -/
def moveTrailers (t : Table) : Table :=
  ⟨t.vendors,
   t.rows.filter keepRow ++ t.rows.filter rowIsPrice ++ t.rows.filter rowIsScore⟩

/-- `update_evaluation_matrix(vendor_evaluations, vendor_name)`. -/
def update_evaluation_matrix (t : Table) (m : StrMap) (v : String) : Table :=
  moveTrailers (appendMissing (setColumn t v m) v m)

/-- The persisted-file state: `none` models a missing
`evaluation_matrix.csv`; `pd.read_csv` raises `FileNotFoundError` then. -/
def read_csv : Option Table → Except String Table
  | some t => Except.ok t
  | none => Except.error "FileNotFoundError"

/-- `get_evaluation_matrix`: read the persisted table, turning a
`FileNotFoundError` into the empty table. -/
def get_evaluation_matrix (fs : Option Table) : Except String Table :=
  match read_csv fs with
  | Except.ok t => Except.ok t
  | Except.error e =>
    if e = "FileNotFoundError" then Except.ok Table.empty else Except.error e

/-- **C8.**  `ReadTable` on a missing persisted table does not fail: when
the evaluation-matrix CSV file does not exist, `get_evaluation_matrix`
returns the empty table instead of propagating the error. -/
theorem read_missing_table_empty : get_evaluation_matrix none = Except.ok Table.empty := by
  rfl

/-! ## Table lemmas -/

theorem idxOf_lt_length {v : String} :
    ∀ {l : List String}, v ∈ l → idxOf v l < l.length := by
  intro l
  induction l with
  | nil =>
    intro h
    cases h
  | cons x xs ih =>
    intro h
    simp only [idxOf]
    by_cases hx : x = v
    · simp [hx]
    · rw [if_neg hx]
      have : v ∈ xs := by
        rcases List.mem_cons.mp h with h' | h'
        · exact absurd h'.symm hx
        · exact h'
      simpa [Nat.succ_lt_succ_iff] using ih this

theorem getElem?_idxOf {v : String} :
    ∀ {l : List String}, v ∈ l → l[idxOf v l]? = some v := by
  intro l
  induction l with
  | nil =>
    intro h
    cases h
  | cons x xs ih =>
    intro h
    simp only [idxOf]
    by_cases hx : x = v
    · simp [hx]
    · rw [if_neg hx]
      have : v ∈ xs := by
        rcases List.mem_cons.mp h with h' | h'
        · exact absurd h'.symm hx
        · exact h'
      simpa using ih this

theorem idxOf_of_not_mem {v : String} :
    ∀ {l : List String}, v ∉ l → idxOf v l = l.length := by
  intro l
  induction l with
  | nil =>
    intro _
    rfl
  | cons x xs ih =>
    intro h
    simp only [idxOf]
    rw [if_neg (fun hh => h (by rw [← hh]; exact List.mem_cons_self _ _)),
        ih (fun hh => h (List.mem_cons_of_mem _ hh))]
    rfl

theorem idxOf_append_self {v : String} {l : List String} (h : v ∉ l) :
    idxOf v (l ++ [v]) = l.length := by
  induction l with
  | nil => simp [idxOf]
  | cons x xs ih =>
    simp only [List.cons_append, idxOf, List.append_eq]
    rw [if_neg (fun hh => h (by rw [← hh]; exact List.mem_cons_self _ _)),
        ih (fun hh => h (List.mem_cons_of_mem _ hh))]
    rfl

theorem idxOf_ne {c v : String} {l : List String} (hc : c ∈ l) (hcv : c ≠ v) :
    idxOf c l ≠ idxOf v l := by
  by_cases hv : v ∈ l
  · intro h
    have h1 := getElem?_idxOf hc
    have h2 := getElem?_idxOf hv
    rw [h] at h1
    rw [h1] at h2
    exact hcv (Option.some_injective _ h2)
  · intro h
    have h1 := idxOf_lt_length hc
    rw [h, idxOf_of_not_mem hv] at h1
    exact Nat.lt_irrefl _ h1

/-- The per-row cell update performed by `setColumn`. -/
def setCell (t : Table) (v : String) (m : StrMap)
    (p : String × List (Option String)) : List (Option String) :=
  if v ∈ t.vendors then p.2.set (idxOf v t.vendors) (lookupA m p.1)
  else p.2 ++ [lookupA m p.1]

theorem setColumn_rows_eq (t : Table) (v : String) (m : StrMap) :
    (setColumn t v m).rows = t.rows.map (fun p => (p.1, setCell t v m p)) := by
  unfold setColumn
  by_cases hv : v ∈ t.vendors
  · rw [if_pos hv]
    exact List.map_congr_left (fun p _ => by simp [setCell, hv])
  · rw [if_neg hv]
    exact List.map_congr_left (fun p _ => by simp [setCell, hv])

theorem setColumn_vendors (t : Table) (v : String) (m : StrMap) :
    (setColumn t v m).vendors =
      if v ∈ t.vendors then t.vendors else t.vendors ++ [v] := by
  unfold setColumn
  by_cases hv : v ∈ t.vendors
  · rw [if_pos hv, if_pos hv]
  · rw [if_neg hv, if_neg hv]

theorem mem_vendors_setColumn (t : Table) (v : String) (m : StrMap) :
    v ∈ (setColumn t v m).vendors := by
  rw [setColumn_vendors]
  by_cases hv : v ∈ t.vendors
  · rwa [if_pos hv]
  · rw [if_neg hv]
    exact List.mem_append_right _ (List.mem_singleton.mpr rfl)

theorem appendMissing_spec (v : String) :
    ∀ (m : StrMap) (t : Table),
      (appendMissing t v m).vendors = t.vendors ∧
      ∃ extra,
        (appendMissing t v m).rows = t.rows ++ extra ∧
        (extra.map Prod.fst).Nodup ∧
        (∀ p ∈ extra, p.1 ∈ m.map Prod.fst ∧ p.1 ∉ t.rows.map Prod.fst ∧
          ∃ ev, lookupA m p.1 = some ev ∧ p.2 = newCells t.vendors v ev) ∧
        (∀ k ∈ m.map Prod.fst, k ∈ t.rows.map Prod.fst ∨ k ∈ extra.map Prod.fst) := by
  intro m
  induction m with
  | nil =>
    intro t
    exact ⟨rfl, [], by simp [appendMissing], by simp, by simp, by simp⟩
  | cons hd rest ih =>
    intro t
    rcases hd with ⟨req, ev⟩
    simp only [appendMissing]
    by_cases hmem : req ∈ t.rows.map Prod.fst
    · rw [if_pos hmem]
      obtain ⟨hv, extra, hrows, hnd, hprops, hcov⟩ := ih t
      refine ⟨hv, extra, hrows, hnd, ?_, ?_⟩
      · intro p hp
        obtain ⟨h1, h2, ev', hev, hcells⟩ := hprops p hp
        have hne : ¬ req = p.1 := by
          intro hh
          exact h2 (hh ▸ hmem)
        refine ⟨List.mem_cons_of_mem _ h1, h2, ev', ?_, hcells⟩
        simpa [lookupA, hne] using hev
      · intro k hk
        simp only [List.map_cons, List.mem_cons] at hk
        rcases hk with hk' | hk'
        · exact Or.inl (hk' ▸ hmem)
        · exact hcov k hk'
    · rw [if_neg hmem]
      set t' : Table := ⟨t.vendors, t.rows ++ [(req, newCells t.vendors v ev)]⟩ with ht'
      obtain ⟨hv, extra, hrows, hnd, hprops, hcov⟩ := ih t'
      have hkeys' : t'.rows.map Prod.fst = t.rows.map Prod.fst ++ [req] := by
        simp [ht']
      refine ⟨hv, (req, newCells t.vendors v ev) :: extra, ?_, ?_, ?_, ?_⟩
      · rw [hrows, ht']
        simp
      · simp only [List.map_cons, List.nodup_cons]
        refine ⟨?_, hnd⟩
        intro hcontra
        obtain ⟨p, hp, hp1⟩ := List.mem_map.mp hcontra
        obtain ⟨_, h2, _⟩ := hprops p hp
        rw [hkeys'] at h2
        exact h2 (List.mem_append_right _ (List.mem_singleton.mpr hp1))
      · intro p hp
        rcases List.mem_cons.mp hp with hp' | hp'
        · subst hp'
          exact ⟨List.mem_cons_self _ _, hmem, ev, by simp [lookupA], rfl⟩
        · obtain ⟨h1, h2, ev', hev, hcells⟩ := hprops p hp'
          rw [hkeys'] at h2
          have hreq : ¬ req = p.1 := by
            intro hh
            exact h2 (List.mem_append_right _ (List.mem_singleton.mpr hh.symm))
          refine ⟨List.mem_cons_of_mem _ h1,
            fun hh => h2 (List.mem_append_left _ hh), ev', ?_, ?_⟩
          · simpa [lookupA, hreq] using hev
          · simpa [ht'] using hcells
      · intro k hk
        simp only [List.map_cons, List.mem_cons] at hk
        rcases hk with hk' | hk'
        · exact Or.inr (by simp [hk'])
        · rcases hcov k hk' with h' | h'
          · rw [hkeys'] at h'
            rcases List.mem_append.mp h' with h'' | h''
            · exact Or.inl h''
            · exact Or.inr (by simp [List.mem_singleton.mp h''])
          · exact Or.inr (List.mem_cons_of_mem _ h')

theorem moveTrailers_vendors (t : Table) : (moveTrailers t).vendors = t.vendors := rfl

theorem mem_rows_moveTrailers {t : Table} {p : String × List (Option String)}
    (h : p ∈ t.rows) : p ∈ (moveTrailers t).rows := by
  unfold moveTrailers
  simp only [List.mem_append, List.mem_filter]
  by_cases hp : rowIsPrice p = true
  · exact Or.inl (Or.inr ⟨h, hp⟩)
  · by_cases hs : rowIsScore p = true
    · exact Or.inr ⟨h, hs⟩
    · have hp' : rowIsPrice p = false := by simpa using hp
      have hs' : rowIsScore p = false := by simpa using hs
      exact Or.inl (Or.inl ⟨h, by simp [keepRow, hp', hs']⟩)

theorem mem_rows_of_moveTrailers {t : Table} {p : String × List (Option String)}
    (h : p ∈ (moveTrailers t).rows) : p ∈ t.rows := by
  unfold moveTrailers at h
  simp only [List.mem_append, List.mem_filter] at h
  rcases h with (⟨h', _⟩ | ⟨h', _⟩) | ⟨h', _⟩ <;> exact h'

/-! ## The trailer invariant -/

/-- A requirement text free of both trailer substrings. -/
def goodReq (s : String) : Prop :=
  containsSubstr s "PRICE INFORMATION" = false ∧
  containsSubstr s "SCORING SUMMARY" = false

instance (s : String) : Decidable (goodReq s) := by
  unfold goodReq
  infer_instance

/-- A vendor mapping as the Evaluation Parser produces it: both trailer
keys present, and every other key free of the trailer substrings. -/
def GoodMap (m : StrMap) : Prop :=
  priceKey ∈ m.map Prod.fst ∧ scoreKey ∈ m.map Prod.fst ∧
  ∀ k ∈ m.map Prod.fst, k = priceKey ∨ k = scoreKey ∨ goodReq k

instance (m : StrMap) : Decidable (GoodMap m) := by
  unfold GoodMap
  infer_instance

/-- The trailer invariant: the persisted rows end with the price row then
the score row, and no other row matches a trailer pattern. -/
def Tidy (t : Table) : Prop :=
  ∃ body prc scr, t.rows = body ++ [(priceKey, prc), (scoreKey, scr)] ∧
    ∀ p ∈ body, goodReq p.1

theorem filter_price_nil_of_good {rows : List (String × List (Option String))}
    (h : ∀ p ∈ rows, goodReq p.1) : rows.filter rowIsPrice = [] :=
  List.filter_eq_nil_iff.mpr (fun p hp => by
    unfold rowIsPrice
    rw [(h p hp).1]
    simp)

theorem filter_score_nil_of_good {rows : List (String × List (Option String))}
    (h : ∀ p ∈ rows, goodReq p.1) : rows.filter rowIsScore = [] :=
  List.filter_eq_nil_iff.mpr (fun p hp => by
    unfold rowIsScore
    rw [(h p hp).2]
    simp)

theorem good_of_keep {rows : List (String × List (Option String))} :
    ∀ p ∈ rows.filter keepRow, goodReq p.1 := by
  intro p hp
  obtain ⟨-, hk⟩ := List.mem_filter.mp hp
  unfold keepRow rowIsPrice rowIsScore at hk
  simp only [Bool.not_eq_true', Bool.or_eq_false_iff] at hk
  exact hk

theorem filter_key_singleton {K : String} :
    ∀ {l : List (String × List (Option String))},
      (l.map Prod.fst).Nodup → K ∈ l.map Prod.fst →
      ∃ cs, l.filter (fun p => p.1 == K) = [(K, cs)] := by
  intro l
  induction l with
  | nil =>
    intro _ h
    simp at h
  | cons q rest ih =>
    rcases q with ⟨q1, q2⟩
    intro hnd hK
    simp only [List.map_cons, List.nodup_cons] at hnd
    simp only [List.map_cons, List.mem_cons] at hK
    by_cases hq : q1 = K
    · subst hq
      refine ⟨q2, ?_⟩
      rw [List.filter_cons, if_pos (by simp)]
      have hnil : rest.filter (fun p => p.1 == q1) = [] := by
        apply List.filter_eq_nil_iff.mpr
        intro p hp hc
        have hpq : p.1 = q1 := by simpa using hc
        exact hnd.1 (List.mem_map.mpr ⟨p, hp, hpq⟩)
      rw [hnil]
    · have hK' : K ∈ rest.map Prod.fst := by
        rcases hK with h | h
        · exact absurd h.symm hq
        · exact h
      obtain ⟨cs, hcs⟩ := ih hnd.2 hK'
      refine ⟨cs, ?_⟩
      rw [List.filter_cons, if_neg (by simp [hq]), hcs]

theorem setColumn_good {t : Table} {v : String} {m : StrMap}
    (h : ∀ p ∈ t.rows, goodReq p.1) :
    ∀ p ∈ (setColumn t v m).rows, goodReq p.1 := by
  intro p hp
  rw [setColumn_rows_eq] at hp
  obtain ⟨q, hq, rfl⟩ := List.mem_map.mp hp
  exact h q hq

theorem update_tidy_of_clean {t : Table} {m : StrMap} {v : String}
    (hclean : ∀ p ∈ t.rows, goodReq p.1) (hm : GoodMap m) :
    Tidy (update_evaluation_matrix t m v) := by
  obtain ⟨hpk, hsk, hkeys⟩ := hm
  obtain ⟨-, extra, hrows, hnd, hprops, hcov⟩ := appendMissing_spec v m (setColumn t v m)
  have h₁good : ∀ p ∈ (setColumn t v m).rows, goodReq p.1 := setColumn_good hclean
  have hkeysgood : ∀ k ∈ (setColumn t v m).rows.map Prod.fst, goodReq k := by
    intro k hk
    obtain ⟨p, hp, rfl⟩ := List.mem_map.mp hk
    exact h₁good p hp
  have hpk_not : priceKey ∉ (setColumn t v m).rows.map Prod.fst := by
    intro h
    exact absurd (hkeysgood _ h).1 (by decide)
  have hsk_not : scoreKey ∉ (setColumn t v m).rows.map Prod.fst := by
    intro h
    exact absurd (hkeysgood _ h).2 (by decide)
  have hpk_extra : priceKey ∈ extra.map Prod.fst := (hcov _ hpk).resolve_left hpk_not
  have hsk_extra : scoreKey ∈ extra.map Prod.fst := (hcov _ hsk).resolve_left hsk_not
  have hext_price : extra.filter rowIsPrice = extra.filter (fun p => p.1 == priceKey) := by
    apply List.filter_congr
    intro p hp
    obtain ⟨h1, -, -⟩ := hprops p hp
    rcases hkeys _ h1 with h | h | h
    · unfold rowIsPrice
      rw [h]
      decide
    · unfold rowIsPrice
      rw [h]
      decide
    · have hne : p.1 ≠ priceKey := by
        intro hh
        rw [hh] at h
        exact absurd h.1 (by decide)
      unfold rowIsPrice
      rw [h.1, beq_eq_false_iff_ne.mpr hne]
  have hext_score : extra.filter rowIsScore = extra.filter (fun p => p.1 == scoreKey) := by
    apply List.filter_congr
    intro p hp
    obtain ⟨h1, -, -⟩ := hprops p hp
    rcases hkeys _ h1 with h | h | h
    · unfold rowIsScore
      rw [h]
      decide
    · unfold rowIsScore
      rw [h]
      decide
    · have hne : p.1 ≠ scoreKey := by
        intro hh
        rw [hh] at h
        exact absurd h.2 (by decide)
      unfold rowIsScore
      rw [h.2, beq_eq_false_iff_ne.mpr hne]
  obtain ⟨prc, hprc⟩ := filter_key_singleton hnd hpk_extra
  obtain ⟨scr, hscr⟩ := filter_key_singleton hnd hsk_extra
  refine ⟨((setColumn t v m).rows ++ extra).filter keepRow, prc, scr, ?_, good_of_keep⟩
  show (moveTrailers (appendMissing (setColumn t v m) v m)).rows = _
  unfold moveTrailers
  rw [hrows]
  simp only [List.filter_append]
  rw [filter_price_nil_of_good h₁good, filter_score_nil_of_good h₁good,
      hext_price, hprc, hext_score, hscr]
  simp

theorem update_tidy_of_tidy {t : Table} {m : StrMap} {v : String}
    (ht : Tidy t) (hm : GoodMap m) : Tidy (update_evaluation_matrix t m v) := by
  obtain ⟨body, prc, scr, hbody, hgood⟩ := ht
  obtain ⟨hpk, hsk, hkeys⟩ := hm
  obtain ⟨-, extra, hrows, hnd, hprops, hcov⟩ := appendMissing_spec v m (setColumn t v m)
  have h₁ : (setColumn t v m).rows =
      body.map (fun p => (p.1, setCell t v m p)) ++
      [(priceKey, setCell t v m (priceKey, prc)),
       (scoreKey, setCell t v m (scoreKey, scr))] := by
    rw [setColumn_rows_eq, hbody]
    simp
  have hpk_t₁ : priceKey ∈ (setColumn t v m).rows.map Prod.fst := by
    rw [h₁]
    simp
  have hsk_t₁ : scoreKey ∈ (setColumn t v m).rows.map Prod.fst := by
    rw [h₁]
    simp
  have hextra_good : ∀ p ∈ extra, goodReq p.1 := by
    intro p hp
    obtain ⟨h1, h2, -⟩ := hprops p hp
    rcases hkeys _ h1 with h | h | h
    · exact absurd hpk_t₁ (h ▸ h2)
    · exact absurd hsk_t₁ (h ▸ h2)
    · exact h
  have hbody_good : ∀ p ∈ body.map (fun p => (p.1, setCell t v m p)), goodReq p.1 := by
    intro p hp
    obtain ⟨q, hq, rfl⟩ := List.mem_map.mp hp
    exact hgood q hq
  refine ⟨((setColumn t v m).rows ++ extra).filter keepRow,
    setCell t v m (priceKey, prc), setCell t v m (scoreKey, scr), ?_, good_of_keep⟩
  show (moveTrailers (appendMissing (setColumn t v m) v m)).rows = _
  unfold moveTrailers
  rw [hrows, h₁]
  simp only [List.filter_append, List.filter_cons]
  rw [filter_price_nil_of_good hbody_good, filter_score_nil_of_good hbody_good,
      filter_price_nil_of_good hextra_good, filter_score_nil_of_good hextra_good]
  simp [rowIsPrice, rowIsScore, keepRow,
    show containsSubstr priceKey "PRICE INFORMATION" = true from by decide,
    show containsSubstr scoreKey "PRICE INFORMATION" = false from by decide,
    show containsSubstr priceKey "SCORING SUMMARY" = false from by decide,
    show containsSubstr scoreKey "SCORING SUMMARY" = true from by decide]

/-- A sequence of `UpdateTable` calls applied to a persisted table. -/
def applyUpdates (t : Table) (updates : List (String × StrMap)) : Table :=
  updates.foldl (fun acc u => update_evaluation_matrix acc u.2 u.1) t

theorem tidy_applyUpdates :
    ∀ (updates : List (String × StrMap)) (t : Table), Tidy t →
      (∀ u ∈ updates, GoodMap u.2) → Tidy (applyUpdates t updates) := by
  intro updates
  induction updates with
  | nil =>
    intro t ht _
    exact ht
  | cons u rest ih =>
    intro t ht hg
    exact ih _ (update_tidy_of_tidy ht (hg u (List.mem_cons_self _ _)))
      (fun w hw => hg w (List.mem_cons_of_mem _ hw))

/-- **C3, counterexample.**  A table seeded with a requirement whose text
contains the substring `SCORING SUMMARY` breaks the trailer invariant: the
relocation moves that requirement row behind the price trailer, so the last
two rows are not Price-then-Score. -/
theorem trailer_invariant_cex :
    ((update_evaluation_matrix
        (create_evaluation_matrix ["the weird SCORING SUMMARY req"])
        [(priceKey, "p"), (scoreKey, "s")] "V").rows.map Prod.fst =
      [priceKey, "the weird SCORING SUMMARY req", scoreKey]) ∧
    ("the weird SCORING SUMMARY req" : String) ≠ priceKey := by
  decide

/-- **C3, amended.**  After any non-empty sequence of `UpdateTable` calls
on a table created by `CreateTable` — provided every seeded requirement is
free of the two trailer substrings and every update mapping contains both
trailer keys and no other key matching a trailer substring (`GoodMap`, the
shape every Evaluation Parser output has) — the Price row and the Score
row are the last two rows of the persisted table, in that fixed order. -/
theorem trailer_invariant_amended (requirements : List String)
    (updates : List (String × StrMap))
    (hreq : ∀ r ∈ requirements, goodReq (processReq r))
    (hne : updates ≠ [])
    (hgood : ∀ u ∈ updates, GoodMap u.2) :
    ∃ body prc scr,
      (applyUpdates (create_evaluation_matrix requirements) updates).rows =
        body ++ [(priceKey, prc), (scoreKey, scr)] := by
  rcases updates with _ | ⟨u, rest⟩
  · exact absurd rfl hne
  · have hclean : ∀ p ∈ (create_evaluation_matrix requirements).rows, goodReq p.1 := by
      intro p hp
      unfold create_evaluation_matrix at hp
      obtain ⟨s, hs, rfl⟩ := List.mem_map.mp hp
      obtain ⟨r, hr, rfl⟩ := List.mem_map.mp hs
      exact hreq r hr
    have h1 : Tidy (update_evaluation_matrix (create_evaluation_matrix requirements) u.2 u.1) :=
      update_tidy_of_clean hclean (hgood u (List.mem_cons_self _ _))
    have h2 := tidy_applyUpdates rest _ h1 (fun w hw => hgood w (List.mem_cons_of_mem _ hw))
    obtain ⟨body, prc, scr, hrows, -⟩ := h2
    exact ⟨body, prc, scr, hrows⟩

/-- **C3, witness**: the amended invariant at a concrete one-vendor run. -/
theorem trailer_invariant_witness :
    ∃ body prc scr,
      (applyUpdates (create_evaluation_matrix ["must support alpha beta"])
        [("V", [("must support alpha beta", "Yes - ok"), (priceKey, "p"), (scoreKey, "s")])]).rows =
        body ++ [(priceKey, prc), (scoreKey, scr)] :=
  trailer_invariant_amended _ _ (by decide) (by decide) (by decide)

/-! ## Idempotence of `update_evaluation_matrix` -/

/-- Rectangularity of the modelled `DataFrame`: every row has one cell per
vendor column (automatic for every table pandas constructs). -/
def WF (t : Table) : Prop := ∀ p ∈ t.rows, p.2.length = t.vendors.length

instance (t : Table) : Decidable (WF t) := by
  unfold WF
  infer_instance

theorem set_of_getElem?_eq {α : Type} :
    ∀ (l : List α) (i : Nat) (a : α), l[i]? = some a → l.set i a = l := by
  intro l
  induction l with
  | nil =>
    intro i a h
    simp at h
  | cons x xs ih =>
    intro i a h
    cases i with
    | zero =>
      rw [List.getElem?_cons_zero, Option.some_inj] at h
      rw [h]
      rfl
    | succ n =>
      rw [List.getElem?_cons_succ] at h
      show x :: xs.set n a = x :: xs
      rw [ih n a h]

theorem setColumn_cell {t : Table} {v : String} {m : StrMap} (hwf : WF t) :
    ∀ p ∈ (setColumn t v m).rows,
      p.2[idxOf v (setColumn t v m).vendors]? = some (lookupA m p.1) := by
  intro p hp
  rw [setColumn_rows_eq] at hp
  obtain ⟨q, hq, rfl⟩ := List.mem_map.mp hp
  rw [setColumn_vendors]
  unfold setCell
  by_cases hv : v ∈ t.vendors
  · simp only [if_pos hv]
    apply List.getElem?_set_self
    rw [hwf q hq]
    exact idxOf_lt_length hv
  · simp only [if_neg hv]
    rw [idxOf_append_self hv, ← hwf q hq]
    exact List.getElem?_concat_length _ _

theorem update_vendors (t : Table) (m : StrMap) (v : String) :
    (update_evaluation_matrix t m v).vendors = (setColumn t v m).vendors := by
  show (moveTrailers (appendMissing (setColumn t v m) v m)).vendors = _
  rw [moveTrailers_vendors, (appendMissing_spec v m (setColumn t v m)).1]

theorem update_cell_v {t : Table} {m : StrMap} {v : String} (hwf : WF t) :
    ∀ p ∈ (update_evaluation_matrix t m v).rows,
      p.2[idxOf v (setColumn t v m).vendors]? = some (lookupA m p.1) := by
  obtain ⟨-, extra, hrows₂, -, hprops, -⟩ := appendMissing_spec v m (setColumn t v m)
  intro p hp
  have hp' : p ∈ (appendMissing (setColumn t v m) v m).rows :=
    mem_rows_of_moveTrailers hp
  rw [hrows₂] at hp'
  rcases List.mem_append.mp hp' with hp'' | hp''
  · exact setColumn_cell hwf p hp''
  · obtain ⟨-, -, ev, hev, hcells⟩ := hprops p hp''
    rw [hcells, hev]
    unfold newCells
    rw [List.getElem?_map, getElem?_idxOf (mem_vendors_setColumn t v m)]
    simp

theorem update_keys_sup {t : Table} {m : StrMap} {v : String} :
    ∀ k ∈ m.map Prod.fst,
      k ∈ (update_evaluation_matrix t m v).rows.map Prod.fst := by
  obtain ⟨-, extra, hrows₂, -, -, hcov⟩ := appendMissing_spec v m (setColumn t v m)
  intro k hk
  have hmem : k ∈ (appendMissing (setColumn t v m) v m).rows.map Prod.fst := by
    rw [hrows₂, List.map_append]
    rcases hcov k hk with h | h
    · exact List.mem_append_left _ h
    · exact List.mem_append_right _ h
  obtain ⟨p, hp, rfl⟩ := List.mem_map.mp hmem
  exact List.mem_map.mpr ⟨p, mem_rows_moveTrailers hp, rfl⟩

theorem setColumn_eq_self {t : Table} {v : String} {m : StrMap}
    (hv : v ∈ t.vendors)
    (hcell : ∀ p ∈ t.rows, p.2[idxOf v t.vendors]? = some (lookupA m p.1)) :
    setColumn t v m = t := by
  obtain ⟨tv, tr⟩ := t
  unfold setColumn
  simp only at hv hcell ⊢
  rw [if_pos hv]
  congr 1
  have heach : ∀ p ∈ tr, (p.1, p.2.set (idxOf v tv) (lookupA m p.1)) = id p := by
    intro p hp
    simp only [id]
    rw [set_of_getElem?_eq _ _ _ (hcell p hp)]
  rw [List.map_congr_left heach, List.map_id]

theorem appendMissing_eq_self {v : String} :
    ∀ {m : StrMap} {t : Table},
      (∀ k ∈ m.map Prod.fst, k ∈ t.rows.map Prod.fst) → appendMissing t v m = t := by
  intro m
  induction m with
  | nil =>
    intro t _
    rfl
  | cons hd rest ih =>
    intro t h
    rcases hd with ⟨req, ev⟩
    simp only [appendMissing]
    rw [if_pos (h req (by simp))]
    exact ih (fun k hk => h k (by simp [hk]))

theorem moveTrailers_idem {t : Table}
    (hnb : ∀ p ∈ t.rows, ¬(rowIsPrice p = true ∧ rowIsScore p = true)) :
    moveTrailers (moveTrailers t) = moveTrailers t := by
  have hKK : (t.rows.filter keepRow).filter keepRow = t.rows.filter keepRow := by
    apply List.filter_eq_self.mpr
    intro p hp
    exact (List.mem_filter.mp hp).2
  have hPP : (t.rows.filter rowIsPrice).filter rowIsPrice = t.rows.filter rowIsPrice := by
    apply List.filter_eq_self.mpr
    intro p hp
    exact (List.mem_filter.mp hp).2
  have hSS : (t.rows.filter rowIsScore).filter rowIsScore = t.rows.filter rowIsScore := by
    apply List.filter_eq_self.mpr
    intro p hp
    exact (List.mem_filter.mp hp).2
  have hKP : (t.rows.filter rowIsPrice).filter keepRow = [] := by
    apply List.filter_eq_nil_iff.mpr
    intro p hp
    simp [keepRow, (List.mem_filter.mp hp).2]
  have hKS : (t.rows.filter rowIsScore).filter keepRow = [] := by
    apply List.filter_eq_nil_iff.mpr
    intro p hp
    simp [keepRow, (List.mem_filter.mp hp).2]
  have hPK : (t.rows.filter keepRow).filter rowIsPrice = [] := by
    apply List.filter_eq_nil_iff.mpr
    intro p hp
    obtain ⟨-, hk⟩ := List.mem_filter.mp hp
    unfold keepRow at hk
    simp only [Bool.not_eq_true', Bool.or_eq_false_iff] at hk
    simp [hk.1]
  have hSK : (t.rows.filter keepRow).filter rowIsScore = [] := by
    apply List.filter_eq_nil_iff.mpr
    intro p hp
    obtain ⟨-, hk⟩ := List.mem_filter.mp hp
    unfold keepRow at hk
    simp only [Bool.not_eq_true', Bool.or_eq_false_iff] at hk
    simp [hk.2]
  have hPS : (t.rows.filter rowIsScore).filter rowIsPrice = [] := by
    apply List.filter_eq_nil_iff.mpr
    intro p hp
    obtain ⟨hmem, hs⟩ := List.mem_filter.mp hp
    intro hcontra
    exact hnb p hmem ⟨hcontra, hs⟩
  have hSP : (t.rows.filter rowIsPrice).filter rowIsScore = [] := by
    apply List.filter_eq_nil_iff.mpr
    intro p hp
    obtain ⟨hmem, hpr⟩ := List.mem_filter.mp hp
    intro hcontra
    exact hnb p hmem ⟨hpr, hcontra⟩
  show moveTrailers ⟨t.vendors, _⟩ = _
  unfold moveTrailers
  simp only [List.filter_append, hKK, hPP, hSS, hKP, hKS, hPK, hSK, hPS, hSP]
  simp

theorem update_nb {t : Table} {m : StrMap} {v : String}
    (hrows : ∀ p ∈ t.rows, ¬(rowIsPrice p = true ∧ rowIsScore p = true))
    (hkeys : ∀ k ∈ m.map Prod.fst,
      ¬(containsSubstr k "PRICE INFORMATION" = true ∧
        containsSubstr k "SCORING SUMMARY" = true)) :
    ∀ p ∈ (appendMissing (setColumn t v m) v m).rows,
      ¬(rowIsPrice p = true ∧ rowIsScore p = true) := by
  obtain ⟨-, extra, hrows₂, -, hprops, -⟩ := appendMissing_spec v m (setColumn t v m)
  intro p hp
  rw [hrows₂] at hp
  rcases List.mem_append.mp hp with hp' | hp'
  · rw [setColumn_rows_eq] at hp'
    obtain ⟨q, hq, rfl⟩ := List.mem_map.mp hp'
    exact hrows q hq
  · obtain ⟨h1, -, -⟩ := hprops p hp'
    exact hkeys _ h1

/-- **C4, counterexample.**  A requirement row whose text contains both
trailer substrings is selected by both the price filter and the score
filter, so every update duplicates it: two identical calls are not
idempotent. -/
theorem update_idempotent_cex :
    update_evaluation_matrix (update_evaluation_matrix
        (create_evaluation_matrix ["xx PRICE INFORMATION SCORING SUMMARY xx"]) [] "V") [] "V" ≠
      update_evaluation_matrix
        (create_evaluation_matrix ["xx PRICE INFORMATION SCORING SUMMARY xx"]) [] "V" := by
  decide

/-- **C4, amended.**  `UpdateTable` is idempotent — running it twice with
the same vendor name and mapping equals running it once, the vendor column
overwritten in place with no duplicate column and no duplicate rows —
provided no requirement row and no mapping key contains *both* trailer
substrings (`PRICE INFORMATION` and `SCORING SUMMARY`) at once. -/
theorem update_idempotent (t : Table) (m : StrMap) (v : String)
    (hwf : WF t)
    (hrows : ∀ p ∈ t.rows, ¬(rowIsPrice p = true ∧ rowIsScore p = true))
    (hkeys : ∀ k ∈ m.map Prod.fst,
      ¬(containsSubstr k "PRICE INFORMATION" = true ∧
        containsSubstr k "SCORING SUMMARY" = true)) :
    update_evaluation_matrix (update_evaluation_matrix t m v) m v =
      update_evaluation_matrix t m v := by
  have hv1 : v ∈ (update_evaluation_matrix t m v).vendors := by
    rw [update_vendors]
    exact mem_vendors_setColumn t v m
  have hcell : ∀ p ∈ (update_evaluation_matrix t m v).rows,
      p.2[idxOf v (update_evaluation_matrix t m v).vendors]? = some (lookupA m p.1) := by
    intro p hp
    rw [update_vendors]
    exact update_cell_v hwf p hp
  have h1 : setColumn (update_evaluation_matrix t m v) v m =
      update_evaluation_matrix t m v := setColumn_eq_self hv1 hcell
  have h2 : appendMissing (update_evaluation_matrix t m v) v m =
      update_evaluation_matrix t m v := appendMissing_eq_self update_keys_sup
  have h3 : moveTrailers (update_evaluation_matrix t m v) =
      update_evaluation_matrix t m v := by
    show moveTrailers (moveTrailers (appendMissing (setColumn t v m) v m)) = _
    exact moveTrailers_idem (update_nb hrows hkeys)
  show moveTrailers (appendMissing (setColumn (update_evaluation_matrix t m v) v m) v m) = _
  rw [h1, h2, h3]

/-- **C4, witness**: idempotence at a concrete table and mapping. -/
theorem update_idempotent_witness :
    update_evaluation_matrix (update_evaluation_matrix
        (create_evaluation_matrix ["**Functional Requirements**", "must do alpha beta"])
        [("--- Functional Requirements ---", "N/A"), ("must do alpha beta", "Yes - ok"),
         (priceKey, "p1"), (scoreKey, "Score: 1.0/1")] "VendorA")
      [("--- Functional Requirements ---", "N/A"), ("must do alpha beta", "Yes - ok"),
       (priceKey, "p1"), (scoreKey, "Score: 1.0/1")] "VendorA" =
    update_evaluation_matrix
      (create_evaluation_matrix ["**Functional Requirements**", "must do alpha beta"])
      [("--- Functional Requirements ---", "N/A"), ("must do alpha beta", "Yes - ok"),
       (priceKey, "p1"), (scoreKey, "Score: 1.0/1")] "VendorA" :=
  update_idempotent _ _ _ (by decide) (by decide) (by decide)

/-! ## Frame property of `update_evaluation_matrix` -/

theorem setColumn_keys (t : Table) (v : String) (m : StrMap) :
    (setColumn t v m).rows.map Prod.fst = t.rows.map Prod.fst := by
  rw [setColumn_rows_eq, List.map_map]
  rfl

theorem keepRow_comp_setCell (t : Table) (v : String) (m : StrMap) :
    keepRow ∘ (fun p => (p.1, setCell t v m p)) = keepRow := by
  funext p
  rfl

theorem filter_keep_moveTrailers (tt : Table) :
    (moveTrailers tt).rows.filter keepRow = tt.rows.filter keepRow := by
  have hKK : (tt.rows.filter keepRow).filter keepRow = tt.rows.filter keepRow := by
    apply List.filter_eq_self.mpr
    intro p hp
    exact (List.mem_filter.mp hp).2
  have hKP : (tt.rows.filter rowIsPrice).filter keepRow = [] := by
    apply List.filter_eq_nil_iff.mpr
    intro p hp
    simp [keepRow, (List.mem_filter.mp hp).2]
  have hKS : (tt.rows.filter rowIsScore).filter keepRow = [] := by
    apply List.filter_eq_nil_iff.mpr
    intro p hp
    simp [keepRow, (List.mem_filter.mp hp).2]
  show (tt.rows.filter keepRow ++ tt.rows.filter rowIsPrice ++
    tt.rows.filter rowIsScore).filter keepRow = _
  rw [List.filter_append, List.filter_append, hKK, hKP, hKS]
  simp

theorem setCell_other {t : Table} {v c : String} {m : StrMap}
    (hwf : WF t) (hc : c ∈ t.vendors) (hcv : c ≠ v) :
    ∀ p ∈ t.rows, (setCell t v m p)[idxOf c t.vendors]? = p.2[idxOf c t.vendors]? := by
  intro p hp
  unfold setCell
  by_cases hv : v ∈ t.vendors
  · rw [if_pos hv]
    exact List.getElem?_set_ne (idxOf_ne hc hcv).symm
  · rw [if_neg hv, List.getElem?_append]
    rw [if_pos (by rw [hwf p hp]; exact idxOf_lt_length hc)]

/-- **C10.**  Frame property of `UpdateTable`: for every column `c` other
than the updated vendor `v`, (i) the projection of the table to the
non-trailer rows — requirement text together with `c`'s cell — is
unchanged in order and values, and (ii) every row of the old table keeps a
row with the same requirement text and the same `c`-cell in the new table
(trailer rows may only move). Hypotheses: the table is rectangular, `c` is
an existing column, and every mapping key is an existing requirement or a
trailer-marked key — the shape of every Evaluation Parser output. -/
theorem update_frame (t : Table) (m : StrMap) (v c : String)
    (hwf : WF t) (hc : c ∈ t.vendors) (hcv : c ≠ v)
    (hkeys : ∀ k ∈ m.map Prod.fst, k ∈ t.rows.map Prod.fst ∨
      containsSubstr k "PRICE INFORMATION" = true ∨
      containsSubstr k "SCORING SUMMARY" = true) :
    (((update_evaluation_matrix t m v).rows.filter keepRow).map
        (fun p => (p.1, p.2[idxOf c t.vendors]?)) =
      (t.rows.filter keepRow).map (fun p => (p.1, p.2[idxOf c t.vendors]?))) ∧
    ∀ p ∈ t.rows, ∃ cs, (p.1, cs) ∈ (update_evaluation_matrix t m v).rows ∧
      cs[idxOf c t.vendors]? = p.2[idxOf c t.vendors]? := by
  obtain ⟨-, extra, hrows₂, -, hprops, -⟩ := appendMissing_spec v m (setColumn t v m)
  constructor
  · have hstep : (update_evaluation_matrix t m v).rows.filter keepRow =
        (appendMissing (setColumn t v m) v m).rows.filter keepRow :=
      filter_keep_moveTrailers _
    have hextra : extra.filter keepRow = [] := by
      apply List.filter_eq_nil_iff.mpr
      intro p hp
      obtain ⟨h1, h2, -⟩ := hprops p hp
      rw [setColumn_keys] at h2
      rcases hkeys _ h1 with h | h | h
      · exact absurd h h2
      · intro hcontra
        unfold keepRow rowIsPrice at hcontra
        rw [h] at hcontra
        simp at hcontra
      · intro hcontra
        unfold keepRow rowIsScore at hcontra
        rw [h] at hcontra
        simp at hcontra
    rw [hstep, hrows₂, List.filter_append, hextra, List.append_nil,
        setColumn_rows_eq, List.filter_map, keepRow_comp_setCell, List.map_map]
    apply List.map_congr_left
    intro p hp
    obtain ⟨hmem, -⟩ := List.mem_filter.mp hp
    show (p.1, (setCell t v m p)[idxOf c t.vendors]?) = (p.1, p.2[idxOf c t.vendors]?)
    rw [setCell_other hwf hc hcv p hmem]
  · intro p hp
    refine ⟨setCell t v m p, ?_, setCell_other hwf hc hcv p hp⟩
    apply mem_rows_moveTrailers
    rw [hrows₂]
    apply List.mem_append_left
    rw [setColumn_rows_eq]
    exact List.mem_map.mpr ⟨p, hp, rfl⟩

/-- The concrete one-vendor table used by the frame-property witness. -/
def frameWitnessTable : Table :=
  ⟨["A"], [("req one alpha", [some "Yes - a"]),
           (priceKey, [some "pA"]), (scoreKey, [some "sA"])]⟩

/-- The concrete mapping used by the frame-property witness. -/
def frameWitnessMap : StrMap :=
  [("req one alpha", "No - b"), (priceKey, "pB"), (scoreKey, "sB")]

/-- **C10, witness** at a concrete two-vendor table. -/
theorem update_frame_witness :
    (((update_evaluation_matrix frameWitnessTable frameWitnessMap "B").rows.filter
          keepRow).map (fun p => (p.1, p.2[idxOf "A" frameWitnessTable.vendors]?)) =
      (frameWitnessTable.rows.filter keepRow).map
        (fun p => (p.1, p.2[idxOf "A" frameWitnessTable.vendors]?))) ∧
    ∀ p ∈ frameWitnessTable.rows,
      ∃ cs, (p.1, cs) ∈ (update_evaluation_matrix frameWitnessTable frameWitnessMap "B").rows ∧
        cs[idxOf "A" frameWitnessTable.vendors]? = p.2[idxOf "A" frameWitnessTable.vendors]? :=
  update_frame frameWitnessTable frameWitnessMap "B" "A"
    (by decide) (by decide) (by decide) (by decide)

/-! ## The Requirement Parser (`VendorEvaluator.analyze_rfp`)

The LLM call is an external collaborator; the parsing of its response into
the categorized requirement list is embedded as a function of the response
text.  `category_requirements` is an insertion-ordered dict from category
name to its list of requirements. -/

/-- State of the requirement scan: `current_category` and the
`category_requirements` dict. -/
structure RfpScan where
  cur : Option String
  cats : List (String × List String)
deriving Repr, DecidableEq

/-- `category_requirements[c] = []`: reset in place when present, append
otherwise. -/
def setCat (cats : List (String × List String)) (c : String) :
    List (String × List String) :=
  match cats with
  | [] => [(c, [])]
  | p :: rest => if p.1 = c then (c, []) :: rest else p :: setCat rest c

/-- `category_requirements[c].append(r)` (no-op when the key is absent,
which the scan never produces). -/
def addReq (cats : List (String × List String)) (c r : String) :
    List (String × List String) :=
  match cats with
  | [] => []
  | p :: rest => if p.1 = c then (p.1, p.2 ++ [r]) :: rest else p :: addReq rest c r

/-- Processing of one line of the response (the body of the
`for line in lines` loop of `analyze_rfp`). -/
def procRfpLine (st : RfpScan) (rawLine : String) : RfpScan :=
  let line := pyStrip rawLine
  if line = "" then st
  else if pyStartsWith line "**" && pyEndsWith line "**" then
    let cat := pyStrip (stripStars line)
    ⟨some cat, setCat st.cats cat⟩
  else if pyStartsWith line "-" || pyStartsWith line "•" || pyStartsWith line "*" then
    let requirement := pyStrip ⟨line.data.drop 1⟩
    if requirement ≠ "" && pyLen requirement > 10 then
      match st.cur with
      | none => st
      | some c => if c = "" then st else { st with cats := addReq st.cats c requirement }
    else st
  else if line ≠ "" && !pyStartsWith line "**" && !pyStartsWith line "Example:" &&
          !pyStartsWith line "Focus on" then
    if pyLen line > 15 && !pyStartsWith line "Please" && !pyStartsWith line "Provide" then
      match st.cur with
      | none => st
      | some c => if c = "" then st else { st with cats := addReq st.cats c line }
    else st
  else st

/-- The flattening of `category_requirements` into the returned list:
every category with at least one requirement contributes its `**`-wrapped
marker followed by its requirements. -/
def flattenCats (cats : List (String × List String)) : List String :=
  cats.foldl
    (fun acc p => if p.2.isEmpty then acc else acc ++ ("**" ++ p.1 ++ "**") :: p.2) []

/-- The Requirement Parser: the requirement list `analyze_rfp` builds from
the model response. -/
def analyze_rfp (response : String) : List String :=
  flattenCats ((pySplitLines response).foldl procRfpLine ⟨none, []⟩).cats

/-! ## Well-formed bullet responses -/

/-- The requirement string filed for a bullet line: the line with its
glyph character removed, trimmed. -/
def parseBullet (l : String) : String := pyStrip ⟨l.data.drop 1⟩

/-- The category name computed from a header line. -/
def catOf (header : String) : String := pyStrip (stripStars header)

/-- A well-formed category header line: already trimmed, single-line,
wrapped in `**`, with a non-empty computed category name. -/
def headerOK (h : String) : Prop :=
  pyStrip h = h ∧ ('\n' : Char) ∉ h.data ∧
  pyStartsWith h "**" = true ∧ pyEndsWith h "**" = true ∧ catOf h ≠ ""

/-- A well-formed bulleted line: already trimmed, single-line, starting
with a bullet glyph, not itself `**`-wrapped, and longer than 10
characters after glyph-stripping and trimming. -/
def bulletOK (l : String) : Prop :=
  pyStrip l = l ∧ ('\n' : Char) ∉ l.data ∧
  (pyStartsWith l "-" || pyStartsWith l "•" || pyStartsWith l "*") = true ∧
  (pyStartsWith l "**" && pyEndsWith l "**") = false ∧
  pyLen (parseBullet l) > 10

instance (h : String) : Decidable (headerOK h) := by
  unfold headerOK
  infer_instance

instance (l : String) : Decidable (bulletOK l) := by
  unfold bulletOK
  infer_instance

/-- Joining lines with `\n` (the inverse of Python's `split('\n')` on
newline-free lines). -/
def joinLines : List String → String
  | [] => ""
  | [l] => l
  | l :: rest => l ++ "\n" ++ joinLines rest

theorem splitChar_not_mem {sep : Char} :
    ∀ {x : List Char}, sep ∉ x → splitChar sep x = [x] := by
  intro x
  induction x with
  | nil =>
    intro _
    rfl
  | cons c cs ih =>
    intro h
    simp only [splitChar]
    rw [if_neg (fun hh => h (by rw [← hh]; exact List.mem_cons_self _ _)),
        ih (fun hh => h (List.mem_cons_of_mem _ hh))]

theorem splitChar_sep_append {sep : Char} :
    ∀ {x : List Char}, sep ∉ x → ∀ (y : List Char),
      splitChar sep (x ++ sep :: y) = x :: splitChar sep y := by
  intro x
  induction x with
  | nil =>
    intro _ y
    simp [List.nil_append, splitChar]
  | cons c cs ih =>
    intro h y
    simp only [List.cons_append, splitChar, List.append_eq]
    rw [if_neg (fun hh => h (by rw [← hh]; exact List.mem_cons_self _ _)),
        ih (fun hh => h (List.mem_cons_of_mem _ hh)) y]

theorem pySplitLines_joinLines :
    ∀ (lines : List String), lines ≠ [] →
      (∀ l ∈ lines, ('\n' : Char) ∉ l.data) →
      pySplitLines (joinLines lines) = lines := by
  intro lines
  induction lines with
  | nil =>
    intro h _
    exact absurd rfl h
  | cons l rest ih =>
    intro _ hnl
    cases rest with
    | nil =>
      show pySplitLines l = [l]
      unfold pySplitLines
      rw [splitChar_not_mem (hnl l (List.mem_cons_self _ _))]
      rfl
    | cons l₂ rest₂ =>
      show pySplitLines (l ++ "\n" ++ joinLines (l₂ :: rest₂)) = l :: l₂ :: rest₂
      unfold pySplitLines
      have hdata : (l ++ "\n" ++ joinLines (l₂ :: rest₂)).data =
          l.data ++ '\n' :: (joinLines (l₂ :: rest₂)).data := by
        rw [String.data_append, String.data_append]
        simp [List.append_assoc]
      rw [hdata, splitChar_sep_append (hnl l (List.mem_cons_self _ _))]
      have hrec := ih (by simp) (fun x hx => hnl x (List.mem_cons_of_mem _ hx))
      unfold pySplitLines at hrec
      simp only [List.map_cons]
      rw [hrec]

theorem setCat_fresh {c : String} :
    ∀ {cats : List (String × List String)}, c ∉ cats.map Prod.fst →
      setCat cats c = cats ++ [(c, [])] := by
  intro cats
  induction cats with
  | nil =>
    intro _
    rfl
  | cons p rest ih =>
    intro h
    simp only [List.map_cons, List.mem_cons] at h
    simp only [setCat]
    rw [if_neg (fun hh => h (Or.inl hh.symm)), ih (fun hh => h (Or.inr hh))]
    rfl

theorem addReq_append {c r : String} {rs : List String} :
    ∀ {C : List (String × List String)}, c ∉ C.map Prod.fst →
      addReq (C ++ [(c, rs)]) c r = C ++ [(c, rs ++ [r])] := by
  intro C
  induction C with
  | nil =>
    intro _
    simp [addReq]
  | cons p rest ih =>
    intro h
    simp only [List.map_cons, List.mem_cons] at h
    simp only [List.cons_append, addReq, List.append_eq]
    rw [if_neg (fun hh => h (Or.inl hh.symm)), ih (fun hh => h (Or.inr hh))]

theorem proc_header {st : RfpScan} {header : String}
    (h1 : pyStrip header = header)
    (h2 : pyStartsWith header "**" = true) (h3 : pyEndsWith header "**" = true) :
    procRfpLine st header = ⟨some (catOf header), setCat st.cats (catOf header)⟩ := by
  have hne : header ≠ "" := by
    intro hh
    rw [hh] at h2
    exact absurd h2 (by decide)
  simp only [procRfpLine, h1]
  rw [if_neg hne, h2, h3]
  rfl

theorem proc_bullet {st : RfpScan} {l c : String}
    (hcur : st.cur = some c) (hc : c ≠ "")
    (h1 : pyStrip l = l)
    (h2 : (pyStartsWith l "**" && pyEndsWith l "**") = false)
    (h3 : (pyStartsWith l "-" || pyStartsWith l "•" || pyStartsWith l "*") = true)
    (h4 : pyLen (parseBullet l) > 10) :
    procRfpLine st l = ⟨st.cur, addReq st.cats c (parseBullet l)⟩ := by
  have hne : l ≠ "" := by
    intro hh
    rw [hh] at h3
    exact absurd h3 (by decide)
  have hreq : parseBullet l ≠ "" := by
    intro hh
    unfold parseBullet at h4
    rw [show pyStrip ⟨l.data.drop 1⟩ = parseBullet l from rfl, hh] at h4
    exact absurd h4 (by decide)
  unfold parseBullet at *
  have hreq' : pyStrip ⟨l.data.tail⟩ ≠ "" := by simpa using hreq
  have h4' : 10 < pyLen (pyStrip ⟨l.data.tail⟩) := by simpa using h4
  simp only [procRfpLine, h1]
  rw [if_neg hne, h2, h3]
  simp only [Bool.false_eq_true, if_false, if_true]
  rw [if_pos (by simp [hreq', h4']), hcur]
  simp only [if_neg hc]

theorem proc_bullets {c : String} (hc : c ≠ "") :
    ∀ (bullets : List String) (C : List (String × List String)) (rs : List String),
      c ∉ C.map Prod.fst →
      (∀ l ∈ bullets, bulletOK l) →
      bullets.foldl procRfpLine ⟨some c, C ++ [(c, rs)]⟩ =
        ⟨some c, C ++ [(c, rs ++ bullets.map parseBullet)]⟩ := by
  intro bullets
  induction bullets with
  | nil =>
    intro C rs _ _
    simp
  | cons l rest ih =>
    intro C rs hfresh hconds
    obtain ⟨h1, -, h3, h2, h4⟩ := hconds l (List.mem_cons_self _ _)
    simp only [List.foldl_cons]
    rw [proc_bullet rfl hc h1 h2 h3 h4]
    show List.foldl procRfpLine ⟨some c, addReq (C ++ [(c, rs)]) c (parseBullet l)⟩ rest = _
    rw [addReq_append hfresh,
        ih C (rs ++ [parseBullet l]) hfresh (fun x hx => hconds x (List.mem_cons_of_mem _ hx))]
    simp

theorem proc_block {header : String} {bullets : List String}
    {C : List (String × List String)} {cur₀ : Option String}
    (hH : headerOK header)
    (hfresh : catOf header ∉ C.map Prod.fst)
    (hB : ∀ l ∈ bullets, bulletOK l) :
    (header :: bullets).foldl procRfpLine ⟨cur₀, C⟩ =
      ⟨some (catOf header), C ++ [(catOf header, bullets.map parseBullet)]⟩ := by
  obtain ⟨h1, -, h2, h3, hcne⟩ := hH
  simp only [List.foldl_cons]
  rw [proc_header h1 h2 h3]
  show List.foldl procRfpLine ⟨some (catOf header), setCat C (catOf header)⟩ bullets = _
  rw [setCat_fresh hfresh]
  have := proc_bullets hcne bullets C [] hfresh hB
  simpa using this

theorem proc_blocks :
    ∀ (blocks : List (String × List String)) (C : List (String × List String))
      (cur₀ : Option String),
      (∀ b ∈ blocks, headerOK b.1 ∧ ∀ l ∈ b.2, bulletOK l) →
      (∀ b ∈ blocks, catOf b.1 ∉ C.map Prod.fst) →
      (blocks.map (fun b => catOf b.1)).Nodup →
      ∃ cur', (blocks.flatMap (fun b => b.1 :: b.2)).foldl procRfpLine ⟨cur₀, C⟩ =
        ⟨cur', C ++ blocks.map (fun b => (catOf b.1, b.2.map parseBullet))⟩ := by
  intro blocks
  induction blocks with
  | nil =>
    intro C cur₀ _ _ _
    exact ⟨cur₀, by simp⟩
  | cons b rest ih =>
    intro C cur₀ hok hfresh hnd
    simp only [List.flatMap_cons, List.foldl_append]
    rw [proc_block (hok b (List.mem_cons_self _ _)).1 (hfresh b (List.mem_cons_self _ _))
        (hok b (List.mem_cons_self _ _)).2]
    simp only [List.map_cons, List.nodup_cons] at hnd
    have hfresh' : ∀ b' ∈ rest, catOf b'.1 ∉
        (C ++ [(catOf b.1, b.2.map parseBullet)]).map Prod.fst := by
      intro b' hb'
      rw [List.map_append, List.mem_append]
      rintro (h | h)
      · exact hfresh b' (List.mem_cons_of_mem _ hb') h
      · simp only [List.map_cons, List.map_nil, List.mem_singleton] at h
        exact hnd.1 (List.mem_map.mpr ⟨b', hb', h⟩)
    obtain ⟨cur', hcur'⟩ := ih (C ++ [(catOf b.1, b.2.map parseBullet)]) (some (catOf b.1))
      (fun w hw => hok w (List.mem_cons_of_mem _ hw)) hfresh' hnd.2
    refine ⟨cur', ?_⟩
    rw [hcur']
    simp

theorem flattenCats_foldl :
    ∀ (cats : List (String × List String)) (acc : List String),
      cats.foldl (fun a p => if p.2.isEmpty then a else a ++ ("**" ++ p.1 ++ "**") :: p.2) acc =
        acc ++ cats.flatMap
          (fun p => if p.2.isEmpty then [] else ("**" ++ p.1 ++ "**") :: p.2) := by
  intro cats
  induction cats with
  | nil =>
    intro acc
    simp
  | cons p rest ih =>
    intro acc
    simp only [List.foldl_cons, List.flatMap_cons]
    by_cases hp : p.2.isEmpty
    · rw [if_pos hp, if_pos hp, ih]
      simp
    · rw [if_neg hp, if_neg hp, ih]
      simp

/-- **C6.**  Requirement Parser order law: for every well-formed bullet
response — category blocks each made of a `**`-wrapped header line
(trimmed, non-empty computed name, names pairwise distinct) followed by
well-formed bulleted lines (bullet glyph, longer than 10 characters after
glyph-stripping and trimming) — the parsed list is exactly, per category
in first-seen order, the category marker immediately followed by that
category's requirements in first-seen order; a category with zero bullets
contributes nothing, so count and order match the bullet sequence. -/
theorem analyze_rfp_wellformed (blocks : List (String × List String))
    (hok : ∀ b ∈ blocks, headerOK b.1 ∧ ∀ l ∈ b.2, bulletOK l)
    (hnd : (blocks.map (fun b => catOf b.1)).Nodup) :
    analyze_rfp (joinLines (blocks.flatMap (fun b => b.1 :: b.2))) =
      blocks.flatMap (fun b =>
        if b.2.isEmpty then []
        else ("**" ++ catOf b.1 ++ "**") :: b.2.map parseBullet) := by
  by_cases hb : blocks = []
  · subst hb
    rfl
  · have hlines_ne : blocks.flatMap (fun b => b.1 :: b.2) ≠ [] := by
      rcases blocks with _ | ⟨b, rest⟩
      · exact absurd rfl hb
      · simp
    have hnl : ∀ l ∈ blocks.flatMap (fun b => b.1 :: b.2), ('\n' : Char) ∉ l.data := by
      intro l hl
      obtain ⟨bb, hbb, hlbb⟩ := List.mem_flatMap.mp hl
      rcases List.mem_cons.mp hlbb with h | h
      · rw [h]
        exact (hok bb hbb).1.2.1
      · exact ((hok bb hbb).2 l h).2.1
    unfold analyze_rfp
    rw [pySplitLines_joinLines _ hlines_ne hnl]
    obtain ⟨cur', hcur'⟩ := proc_blocks blocks [] none hok (by simp) hnd
    rw [hcur']
    show flattenCats ([] ++ blocks.map (fun b => (catOf b.1, b.2.map parseBullet))) = _
    rw [List.nil_append]
    unfold flattenCats
    rw [flattenCats_foldl, List.nil_append, List.flatMap_map]
    have hfun : ∀ (a : String × List String),
        (if (a.2.map parseBullet).isEmpty then ([] : List String)
         else ("**" ++ catOf a.1 ++ "**") :: a.2.map parseBullet) =
        (if a.2.isEmpty then []
         else ("**" ++ catOf a.1 ++ "**") :: a.2.map parseBullet) := by
      intro a
      rcases a with ⟨x, ys⟩
      cases ys <;> simp
    simp only [hfun]

/-- **C6, witness** at a concrete two-category response with one empty
category. -/
theorem analyze_rfp_wellformed_witness :
    analyze_rfp (joinLines ([("**Functional Requirements**",
        ["- must provide alpha beta gamma", "- must support delta epsilon"]),
      ("**Technical Requirements**", ([] : List String))].flatMap
        (fun b => b.1 :: b.2))) =
      [("**Functional Requirements**",
        ["- must provide alpha beta gamma", "- must support delta epsilon"]),
       ("**Technical Requirements**", ([] : List String))].flatMap (fun b =>
        if b.2.isEmpty then []
        else ("**" ++ catOf b.1 ++ "**") :: b.2.map parseBullet) :=
  analyze_rfp_wellformed _ (by decide) (by decide)

end Procurement
